import Mathlib

/-!
Verification of the cc-diffconfig tool (src/main.py): a shallow embedding of
the canonicalize-and-diff pipeline.  `diff_configs` serializes both loaded
documents with `json.dumps(cfg, indent=4, sort_keys=True)`, splits the two
texts into lines, and runs `difflib.unified_diff` over the line lists; the
driver (`main`) wires loading, optional JSON-schema validation, and output.
The embedding below follows CPython's `json` encoder and `difflib`
implementations as exercised by this program.
-/

namespace DiffConfig

mutual
/-- The generic document value produced by the Loader (spec §3): one of
null, boolean, number, string, ordered sequence, string-keyed mapping.
Sequences and mappings use dedicated list types (`DocList`, `KvList`,
isomorphic to `List Document` and `List (String × Document)`) so that all
recursion over documents is structural.  Numbers are modelled as integers;
floating-point literal formatting is outside the model. -/
inductive Document where
  | null : Document
  | bool : Bool → Document
  | num : Int → Document
  | str : String → Document
  | arr : DocList → Document
  | obj : KvList → Document
  deriving DecidableEq

/-- An ordered sequence of documents. -/
inductive DocList where
  | nil : DocList
  | cons : Document → DocList → DocList
  deriving DecidableEq

/-- Mapping items in their insertion order: key-document pairs. -/
inductive KvList where
  | nil : KvList
  | cons : String → Document → KvList → KvList
  deriving DecidableEq
end

/-- Build a sequence from a Lean list. -/
def DocList.ofList : List Document → DocList
  | [] => .nil
  | x :: xs => .cons x (DocList.ofList xs)

/-- Build a mapping from a Lean association list, keeping insertion order. -/
def KvList.ofList : List (String × Document) → KvList
  | [] => .nil
  | (k, v) :: t => .cons k v (KvList.ofList t)

/-- The keys of a mapping, in insertion order. -/
def KvList.keys : KvList → List String
  | .nil => []
  | .cons k _ t => k :: KvList.keys t

/-- Decimal digit character, `'0'` through `'9'`. -/
def digitChar (n : Nat) : Char := Char.ofNat (48 + n)

/-- Decimal rendering, fuelled: the fuel only bounds the recursion depth
(one step per digit), so any fuel above the number of digits yields the
same string; `natRepr` supplies `n + 1`, which always suffices. -/
def natReprF : Nat → Nat → String
  | 0, _ => ""
  | fuel + 1, n =>
    if n < 10 then String.singleton (digitChar n)
    else natReprF fuel (n / 10) ++ String.singleton (digitChar (n % 10))

/-- Decimal rendering of a natural number, as Python `str`/`repr` print it. -/
def natRepr (n : Nat) : String := natReprF (n + 1) n

/-- Rendering of a Python `int`, i.e. an optional minus sign and digits. -/
def intRepr (i : Int) : String :=
  if i < 0 then "-" ++ natRepr i.natAbs else natRepr i.toNat

/-- Lower-case hexadecimal digit character. -/
def hexDigitChar (n : Nat) : Char :=
  if n < 10 then Char.ofNat (48 + n) else Char.ofNat (87 + n)

/-- Four lower-case hex digits, as `'\\u%04x'` formats a code unit. -/
def hex4 (n : Nat) : String :=
  String.mk [hexDigitChar (n / 4096 % 16), hexDigitChar (n / 256 % 16),
             hexDigitChar (n / 16 % 16), hexDigitChar (n % 16)]

/-- Escape of one character inside a JSON string literal, following
`json.encoder.py_encode_basestring_ascii` (`ensure_ascii=True`): the short
escapes, raw printable ASCII, `\uXXXX` for the rest, with a surrogate pair
for characters beyond the Basic Multilingual Plane. -/
def escChar (c : Char) : String :=
  if c = '\\' then "\\\\"
  else if c = '"' then "\\\""
  else if c = '\x08' then "\\b"
  else if c = '\x0c' then "\\f"
  else if c = '\n' then "\\n"
  else if c = '\r' then "\\r"
  else if c = '\t' then "\\t"
  else if 0x20 ≤ c.toNat ∧ c.toNat ≤ 0x7e then String.singleton c
  else if c.toNat < 0x10000 then "\\u" ++ hex4 c.toNat
  else
    "\\u" ++ hex4 (0xd800 + (c.toNat - 0x10000) / 0x400)
      ++ "\\u" ++ hex4 (0xdc00 + (c.toNat - 0x10000) % 0x400)

/-- JSON string literal for `s`: quotes around the escaped characters. -/
def encStr (s : String) : String :=
  "\"" ++ String.join (s.data.map escChar) ++ "\""

/-- `4 * lvl` spaces: the fixed `indent=4` indentation for nesting level `lvl`. -/
def ind (lvl : Nat) : String := String.mk (List.replicate (4 * lvl) ' ')

/-- Order used to sort mapping items: compare the (unencoded) keys.
Python's `sorted(dct.items())` compares the key first and, keys being
unique in a `dict`, never reads the value. -/
def keyLE (p q : String × String) : Prop := p.1 ≤ q.1

instance : DecidableRel keyLE := fun p q => inferInstanceAs (Decidable (p.1 ≤ q.1))

instance : IsTotal (String × String) keyLE := ⟨fun p q => le_total p.1 q.1⟩

instance : IsTrans (String × String) keyLE := ⟨fun _ _ _ h h2 => le_trans h h2⟩

/-- Python's `sorted` is a stable sort; `List.insertionSort` models it. -/
def sortPairs (l : List (String × String)) : List (String × String) :=
  List.insertionSort keyLE l

mutual
/-- Model of `json.dumps(value, indent=4, sort_keys=True)` as called by
`diff_configs` (src/main.py lines 136-137): CPython's `json` encoder with
`indent=4`, `sort_keys=True`, the default separators `(',', ': ')` that the
indent option selects, and `ensure_ascii=True`.  Non-empty containers open
with a newline, each item sits on its own line at the next indentation
level, items are joined by `",\n"`, the closer sits at the opening level;
both empty containers print inline.  The CPython encoder sorts the raw
mapping items and then encodes them in order; here each item's value is
rendered first and the (raw key, rendered value) pairs are then stably
sorted by key, which yields the same item order since the comparison reads
only the key. -/
def dumpsAt (lvl : Nat) : Document → String
  | .null => "null"
  | .bool b => if b then "true" else "false"
  | .num i => intRepr i
  | .str s => encStr s
  | .arr .nil => "[]"
  | .arr (.cons x xs) =>
      "[\n" ++ String.intercalate ",\n" (arrItems (lvl+1) (.cons x xs))
        ++ "\n" ++ ind lvl ++ "]"
  | .obj .nil => "\x7b\x7d"
  | .obj (.cons k v kvs) =>
      "\x7b\n" ++ String.intercalate ",\n"
          ((sortPairs (objItems (lvl+1) (.cons k v kvs))).map fun p =>
            ind (lvl+1) ++ encStr p.1 ++ ": " ++ p.2)
        ++ "\n" ++ ind lvl ++ "\x7d"
termination_by structural d => d

/-- The rendered lines of sequence items at level `lvl` (indent included). -/
def arrItems (lvl : Nat) : DocList → List String
  | .nil => []
  | .cons x xs => (ind lvl ++ dumpsAt lvl x) :: arrItems lvl xs
termination_by structural l => l

/-- The (raw key, rendered value) pairs of mapping items at level `lvl`. -/
def objItems (lvl : Nat) : KvList → List (String × String)
  | .nil => []
  | .cons k v kvs => (k, dumpsAt lvl v) :: objItems lvl kvs
termination_by structural l => l
end

/-- Canonical serialization of one document: `json.dumps` at top level. -/
def dumps (d : Document) : String := dumpsAt 0 d

/-- Split a character list at `'\n'`, Python `str.splitlines()` style: no
entry for a trailing terminator, empty input gives no lines. -/
def charSplit : List Char → List (List Char)
  | [] => []
  | c :: cs =>
    if c = '\n' then [] :: charSplit cs
    else
      match charSplit cs with
      | [] => [[c]]
      | l :: ls => (c :: l) :: ls

/-- Model of Python `str.splitlines()` for strings whose only line
terminator is `'\n'` — true of every string the serializer emits, since
`ensure_ascii=True` escapes all control and non-ASCII characters. -/
def pySplitlines (s : String) : List String := (charSplit s.data).map String.mk


/-! ## difflib model

`diff_configs` calls `difflib.unified_diff(lines1, lines2, fromfile="file1",
tofile="file2")`, which runs `SequenceMatcher(None, a, b)`; with `isjunk =
None` the junk set `bjunk` is empty, so the junk tests below disappear and
the final two junk-extension loops of `find_longest_match` never fire. -/

/-- Popularity test from `SequenceMatcher.__chain_b`: with `autojunk=True`,
when `b` has at least 200 elements, elements occurring more than
`len(b) // 100 + 1` times are dropped from `b2j`. -/
def isPopular (b : List String) (v : String) : Bool :=
  200 ≤ b.length && b.length / 100 + 1 < b.count v

/-- `b2j[v]`: the increasing list of positions of `v` in `b`, with popular
elements deleted; a missing key reads as the empty list (`b2j.get(a[i], [])`). -/
def b2j (b : List String) (v : String) : List Nat :=
  if isPopular b v then []
  else (List.range b.length).filter fun j => b.getD j "" == v

/-- `j2len.get(j, 0)` on the association list representing the dictionary. -/
def lookup0 (l : List (Nat × Nat)) (j : Nat) : Nat := (l.lookup j).getD 0

/-- Inner loop of `find_longest_match` over the occurrence list
`b2j.get(a[i])`: `continue` below `blo`, `break` at `bhi`, otherwise extend
the diagonal run ending at `(i, j)` and take it as best on strict
improvement.  `prev` is the previous row's `j2len`; the new `j2len` is
accumulated alongside the running best.  (`j2lenget(j-1, 0)` reads `-1` as
an absent key when `j = 0`.) -/
def flmRow (blo bhi i : Nat) (prev : List (Nat × Nat)) :
    List Nat → List (Nat × Nat) → Nat × Nat × Nat → List (Nat × Nat) × (Nat × Nat × Nat)
  | [], new, best => (new, best)
  | j :: js, new, best =>
    if j < blo then flmRow blo bhi i prev js new best
    else if bhi ≤ j then (new, best)
    else
      flmRow blo bhi i prev js
        ((j, (if j = 0 then 0 else lookup0 prev (j - 1)) + 1) :: new)
        (if best.2.2 < (if j = 0 then 0 else lookup0 prev (j - 1)) + 1 then
          (i + 1 - ((if j = 0 then 0 else lookup0 prev (j - 1)) + 1),
           j + 1 - ((if j = 0 then 0 else lookup0 prev (j - 1)) + 1),
           (if j = 0 then 0 else lookup0 prev (j - 1)) + 1)
        else best)

/-- Row loop of `find_longest_match`: `cnt` rows starting at row `i`
(Python's `for i in range(alo, ahi)`), threading `j2len` and the best. -/
def flmRows (a b : List String) (blo bhi : Nat) :
    Nat → Nat → List (Nat × Nat) → Nat × Nat × Nat → Nat × Nat × Nat
  | _, 0, _, best => best
  | i, cnt + 1, prev, best =>
    let st := flmRow blo bhi i prev (b2j b (a.getD i "")) [] best
    flmRows a b blo bhi (i + 1) cnt st.1 st.2

/-- Backward extension loop: while `besti > alo and bestj > blo and
a[besti-1] == b[bestj-1]`, widen the match leftward.  The fuel
`besti - alo` bounds the iterations exactly, so running out coincides with
the guard `besti > alo` failing. -/
def extendBack (a b : List String) (alo blo : Nat) :
    Nat → Nat × Nat × Nat → Nat × Nat × Nat
  | 0, best => best
  | fuel + 1, (besti, bestj, bestsize) =>
    if alo < besti && blo < bestj && (a.getD (besti - 1) "" == b.getD (bestj - 1) "") then
      extendBack a b alo blo fuel (besti - 1, bestj - 1, bestsize + 1)
    else (besti, bestj, bestsize)

/-- Forward extension loop: while `besti+bestsize < ahi and bestj+bestsize
< bhi and a[besti+bestsize] == b[bestj+bestsize]`, widen rightward; the
fuel `ahi - (besti + bestsize)` again bounds the iterations exactly. -/
def extendFwd (a b : List String) (ahi bhi : Nat) :
    Nat → Nat × Nat × Nat → Nat × Nat × Nat
  | 0, best => best
  | fuel + 1, (besti, bestj, bestsize) =>
    if besti + bestsize < ahi && bestj + bestsize < bhi
        && (a.getD (besti + bestsize) "" == b.getD (bestj + bestsize) "") then
      extendFwd a b ahi bhi fuel (besti, bestj, bestsize + 1)
    else (besti, bestj, bestsize)

/-- `SequenceMatcher.find_longest_match(alo, ahi, blo, bhi)` with
`isjunk=None`: the `j2len` dynamic program over the rows, then the two
non-junk extension loops; the two junk-extension loops are identities here
because `bjunk` is empty. -/
def find_longest_match (a b : List String) (alo ahi blo bhi : Nat) : Nat × Nat × Nat :=
  let best := flmRows a b blo bhi alo (ahi - alo) [] (alo, blo, 0)
  let best := extendBack a b alo blo (best.1 - alo) best
  extendFwd a b ahi bhi (ahi - (best.1 + best.2.2)) best

/-- Stack loop of `get_matching_blocks`: pop a region, find its longest
match, record it when non-empty and push the two flanking regions (left
pushed first, so the right one — the list head here — pops first, as with
Python's `list.pop()`).  The fuel bounds the number of iterations; the
initial value `la + lb + 1` exceeds the largest possible iteration count,
since each pop either discards a region or splits it into two strictly
smaller ones. -/
def gmbAux (a b : List String) :
    Nat → List (Nat × Nat × Nat × Nat) → List (Nat × Nat × Nat) → List (Nat × Nat × Nat)
  | 0, _, acc => acc
  | _ + 1, [], acc => acc
  | fuel + 1, (alo, ahi, blo, bhi) :: stack, acc =>
    let m := find_longest_match a b alo ahi blo bhi
    let i := m.1
    let j := m.2.1
    let k := m.2.2
    if k = 0 then gmbAux a b fuel stack acc
    else
      let stack1 := if alo < i && blo < j then (alo, i, blo, j) :: stack else stack
      let stack2 := if i + k < ahi && j + k < bhi then (i + k, ahi, j + k, bhi) :: stack1 else stack1
      gmbAux a b fuel stack2 (acc ++ [(i, j, k)])

/-- Lexicographic order on match triples, as `matching_blocks.sort()`
compares tuples. -/
def tripleLE (x y : Nat × Nat × Nat) : Prop :=
  x.1 < y.1 ∨ (x.1 = y.1 ∧ (x.2.1 < y.2.1 ∨ (x.2.1 = y.2.1 ∧ x.2.2 ≤ y.2.2)))

instance : DecidableRel tripleLE := fun x y => by unfold tripleLE; infer_instance

/-- Second half of `get_matching_blocks`: collapse adjacent blocks.  The
running block starts as `(0, 0, 0)` and a zero-length running block is
dropped rather than emitted. -/
def collapseAdj : Nat → Nat → Nat → List (Nat × Nat × Nat) → List (Nat × Nat × Nat)
  | i1, j1, k1, [] => if k1 = 0 then [] else [(i1, j1, k1)]
  | i1, j1, k1, (i2, j2, k2) :: rest =>
    if i1 + k1 = i2 && j1 + k1 = j2 then collapseAdj i1 j1 (k1 + k2) rest
    else (if k1 = 0 then [] else [(i1, j1, k1)]) ++ collapseAdj i2 j2 k2 rest

/-- `SequenceMatcher.get_matching_blocks()`: the stack recursion (the
accumulated matches in Python's traversal order), a sort, the
adjacent-block collapse, and the `(la, lb, 0)` sentinel. -/
def get_matching_blocks (a b : List String) : List (Nat × Nat × Nat) :=
  let blocks := gmbAux a b (a.length + b.length + 1) [(0, a.length, 0, b.length)] []
  collapseAdj 0 0 0 (List.insertionSort tripleLE blocks) ++ [(a.length, b.length, 0)]

/-- Opcode tags of `SequenceMatcher.get_opcodes()`. -/
inductive Tag where
  | replace : Tag
  | delete : Tag
  | insert : Tag
  | equal : Tag
  deriving DecidableEq

/-- One opcode `(tag, i1, i2, j1, j2)`. -/
abbrev Op := Tag × Nat × Nat × Nat × Nat

/-- Walk of `get_opcodes` over the matching blocks: emit a gap opcode when
the running position trails the next block, then the `equal` opcode for the
block itself when it is non-empty. -/
def opcodesAux : Nat → Nat → List (Nat × Nat × Nat) → List Op
  | _, _, [] => []
  | i, j, (ai, bj, size) :: rest =>
    (if i < ai && j < bj then [(Tag.replace, i, ai, j, bj)]
     else if i < ai then [(Tag.delete, i, ai, j, bj)]
     else if j < bj then [(Tag.insert, i, ai, j, bj)]
     else [])
    ++ (if size = 0 then [] else [(Tag.equal, ai, ai + size, bj, bj + size)])
    ++ opcodesAux (ai + size) (bj + size) rest

/-- `SequenceMatcher.get_opcodes()`. -/
def get_opcodes (a b : List String) : List Op :=
  opcodesAux 0 0 (get_matching_blocks a b)

/-- First fixup of `get_grouped_opcodes`: shrink a leading `equal` opcode
to at most `n` trailing lines. -/
def trimHead (n : Nat) : List Op → List Op
  | (Tag.equal, i1, i2, j1, j2) :: rest =>
    (Tag.equal, max i1 (i2 - n), i2, max j1 (j2 - n), j2) :: rest
  | codes => codes

/-- Second fixup: shrink a trailing `equal` opcode to at most `n` leading
lines. -/
def trimLast (n : Nat) (codes : List Op) : List Op :=
  match codes.getLast? with
  | some (Tag.equal, i1, i2, j1, j2) =>
    codes.dropLast ++ [(Tag.equal, i1, min i2 (i1 + n), j1, min j2 (j1 + n))]
  | _ => codes

/-- Grouping loop of `get_grouped_opcodes`: a large `equal` opcode ends the
current group (keeping `n` context lines on each side); a final group that
is a single `equal` opcode is not yielded. -/
def groupLoop (n : Nat) (group : List Op) : List Op → List (List Op)
  | [] =>
    match group with
    | [] => []
    | [(Tag.equal, _, _, _, _)] => []
    | g => [g]
  | (tag, i1, i2, j1, j2) :: rest =>
    if tag = Tag.equal && n + n < i2 - i1 then
      (group ++ [(Tag.equal, i1, min i2 (i1 + n), j1, min j2 (j1 + n))]) ::
        groupLoop n [(Tag.equal, max i1 (i2 - n), i2, max j1 (j2 - n), j2)] rest
    else groupLoop n (group ++ [(tag, i1, i2, j1, j2)]) rest

/-- `SequenceMatcher.get_grouped_opcodes(n)`: empty opcodes are replaced by
the placeholder `("equal", 0, 1, 0, 1)`, the leading and trailing `equal`
opcodes are trimmed, then the grouping loop runs. -/
def get_grouped_opcodes (a b : List String) (n : Nat) : List (List Op) :=
  let codes := get_opcodes a b
  let codes := if codes = [] then [(Tag.equal, 0, 1, 0, 1)] else codes
  groupLoop n [] (trimLast n (trimHead n codes))

/-- `difflib._format_range_unified(start, stop)`. -/
def formatRangeUnified (start stop : Nat) : String :=
  let beginning := start + 1
  let length := stop - start
  if length = 1 then natRepr beginning
  else natRepr (if length = 0 then beginning - 1 else beginning) ++ "," ++ natRepr length

/-- Python slice `l[i1:i2]` (indices already clamped like Python's). -/
def sliceList (l : List String) (i1 i2 : Nat) : List String := (l.take i2).drop i1

/-- Body lines of one opcode inside a group: context lines with a leading
space, `-` lines from `a`, `+` lines from `b` (a `replace` emits all its
`-` lines, then all its `+` lines). -/
def opLines (a b : List String) : Op → List String
  | (Tag.equal, i1, i2, _, _) => (sliceList a i1 i2).map (" " ++ ·)
  | (Tag.replace, i1, i2, j1, j2) =>
    (sliceList a i1 i2).map ("-" ++ ·) ++ (sliceList b j1 j2).map ("+" ++ ·)
  | (Tag.delete, i1, i2, _, _) => (sliceList a i1 i2).map ("-" ++ ·)
  | (Tag.insert, _, _, j1, j2) => (sliceList b j1 j2).map ("+" ++ ·)

/-- The `@@ -r1 +r2 @@` hunk header of a group (groups are never empty;
the defaults are irrelevant).  `lineterm='\n'` is appended, as in
`difflib.unified_diff`'s default. -/
def hunkHeader (g : List Op) : String :=
  let first := g.headD (Tag.equal, 0, 0, 0, 0)
  let last := g.getLastD (Tag.equal, 0, 0, 0, 0)
  "@@ -" ++ formatRangeUnified first.2.1 last.2.2.1
    ++ " +" ++ formatRangeUnified first.2.2.2.1 last.2.2.2.2 ++ " @@\n"

/-- `list(difflib.unified_diff(a, b, fromfile, tofile))`: nothing when
there are no groups; otherwise the two `---`/`+++` header lines (which,
like the hunk headers, carry the default `lineterm='\n'` — body lines do
not), then each group's hunk header and body lines. -/
def unified_diff (a b : List String) (fromfile tofile : String) : List String :=
  match get_grouped_opcodes a b 3 with
  | [] => []
  | groups =>
    ("--- " ++ fromfile ++ "\n") :: ("+++ " ++ tofile ++ "\n") ::
      groups.flatMap fun g => hunkHeader g :: g.flatMap (opLines a b)

/-- `diff_configs(config1, config2)` (src/main.py lines 125-140): serialize
both documents with `json.dumps(…, indent=4, sort_keys=True)`, split into
lines, and return the unified diff as a list of lines. -/
def diff_configs (config1 config2 : Document) : List String :=
  unified_diff (pySplitlines (dumps config1)) (pySplitlines (dumps config2)) "file1" "file2"

/-! ## The loader's value universe and the raising serializer

`yaml.safe_load` can return values outside the spec's Document model — in
particular `datetime.date` objects for ISO-date scalars (PyYAML's
`tag:yaml.org,2002:timestamp` resolver).  `json.dumps` raises `TypeError`
on such objects, and `main` does not guard the `diff_configs` call. -/

mutual
/-- A loaded Python value: the Document constructors plus `datetime.date`,
which PyYAML's safe loader produces for plain scalars matching its
timestamp resolver (e.g. `2020-01-01`). -/
inductive PyValue where
  | none : PyValue
  | bool : Bool → PyValue
  | int : Int → PyValue
  | str : String → PyValue
  | date : Nat → Nat → Nat → PyValue
  | list : PyList → PyValue
  | dict : PyKvList → PyValue
  deriving DecidableEq

/-- A loaded Python list. -/
inductive PyList where
  | nil : PyList
  | cons : PyValue → PyList → PyList
  deriving DecidableEq

/-- A loaded Python dict (string keys), in insertion order. -/
inductive PyKvList where
  | nil : PyKvList
  | cons : String → PyValue → PyKvList → PyKvList
  deriving DecidableEq
end

mutual
/-- Embedding of the spec's Document model into the loader's value
universe.  Note `Document.null` maps to Python `None`. -/
def toPy : Document → PyValue
  | .null => .none
  | .bool b => .bool b
  | .num i => .int i
  | .str s => .str s
  | .arr xs => .list (toPyL xs)
  | .obj kvs => .dict (toPyK kvs)
termination_by structural d => d

/-- `toPy` on sequences. -/
def toPyL : DocList → PyList
  | .nil => .nil
  | .cons x xs => .cons (toPy x) (toPyL xs)
termination_by structural l => l

/-- `toPy` on mapping items. -/
def toPyK : KvList → PyKvList
  | .nil => .nil
  | .cons k v kvs => .cons k (toPy v) (toPyK kvs)
termination_by structural l => l
end

mutual
/-- `json.dumps(value, indent=4, sort_keys=True)` on a loaded value: as
`dumpsAt`, except that an unserializable object reaches the encoder's
`default` hook, which raises `TypeError("Object of type date is not JSON
serializable")`.  The only unserializable value in the modelled universe is
`date`, so which item of a container raises first cannot be observed in the
error message, and rendering values before sorting is again harmless. -/
def json_dumpsPy (lvl : Nat) : PyValue → Except String String
  | .none => .ok "null"
  | .bool b => .ok (if b then "true" else "false")
  | .int i => .ok (intRepr i)
  | .str s => .ok (encStr s)
  | .date _ _ _ => .error "Object of type date is not JSON serializable"
  | .list .nil => .ok "[]"
  | .list (.cons x xs) =>
      (itemsPy (lvl+1) (.cons x xs)).map fun items =>
        "[\n" ++ String.intercalate ",\n" items ++ "\n" ++ ind lvl ++ "]"
  | .dict .nil => .ok "\x7b\x7d"
  | .dict (.cons k v kvs) =>
      (kvItemsPy (lvl+1) (.cons k v kvs)).map fun pairs =>
        "\x7b\n" ++ String.intercalate ",\n"
            ((sortPairs pairs).map fun p => ind (lvl+1) ++ encStr p.1 ++ ": " ++ p.2)
          ++ "\n" ++ ind lvl ++ "\x7d"
termination_by structural v => v

/-- Rendered list items (indent included), or the first raised error. -/
def itemsPy (lvl : Nat) : PyList → Except String (List String)
  | .nil => .ok []
  | .cons x xs =>
    match json_dumpsPy lvl x with
    | .error e => .error e
    | .ok s => (itemsPy lvl xs).map ((ind lvl ++ s) :: ·)
termination_by structural l => l

/-- (raw key, rendered value) dict items, or the first raised error. -/
def kvItemsPy (lvl : Nat) : PyKvList → Except String (List (String × String))
  | .nil => .ok []
  | .cons k v kvs =>
    match json_dumpsPy lvl v with
    | .error e => .error e
    | .ok s => (kvItemsPy lvl kvs).map ((k, s) :: ·)
termination_by structural l => l
end

/-- `diff_configs` over loaded values: either serializer raising aborts the
call with that exception; otherwise the unified diff is returned. -/
def diff_configsPy (config1 config2 : PyValue) : Except String (List String) :=
  match json_dumpsPy 0 config1 with
  | .error e => .error e
  | .ok s1 =>
    match json_dumpsPy 0 config2 with
    | .error e => .error e
    | .ok s2 => .ok (unified_diff (pySplitlines s1) (pySplitlines s2) "file1" "file2")


/-! ## Loader, Validator, Sink and Driver models (src/main.py 50-204) -/

/-- The `--type` choices. -/
inductive ConfigType where
  | json : ConfigType
  | yaml : ConfigType
  | ini : ConfigType

/-- Observable outcome of one `load_config` call: a returned value, a
logged error followed by `return None` (the generic `except Exception`
handler), or a re-raised `FileNotFoundError`. -/
inductive LoadRet where
  | value : PyValue → LoadRet
  | noneLogged : String → LoadRet
  | fnfRaised : String → LoadRet

/-- `load_config(file_path, config_type)` (src/main.py lines 50-88), given
whether the file opens and what the format's parser would produce for its
content.  A `json`/`yaml` parse failure raises `ValueError("Invalid …")`,
which the function's own `except Exception` handler catches, logs as
`"Error loading config file: …"` and converts to `return None`; the `ini`
branch raises `ValueError("INI format is not yet supported.")`, which takes
the same path.  Only `FileNotFoundError` is re-raised. -/
def load_config (fileExists : Bool) (parsed : ConfigType → Except String PyValue)
    (file_path : String) (config_type : ConfigType) : LoadRet :=
  if !fileExists then .fnfRaised ("File not found: " ++ file_path)
  else
    match config_type with
    | .json =>
      match parsed .json with
      | .ok v => .value v
      | .error e => .noneLogged ("Error loading config file: Invalid JSON file: " ++ e)
    | .yaml =>
      match parsed .yaml with
      | .ok v => .value v
      | .error e => .noneLogged ("Error loading config file: Invalid YAML file: " ++ e)
    | .ini => .noneLogged "Error loading config file: INI format is not yet supported."

/-- What happens around one `validate(instance, schema)` call: the schema
file may be missing or fail to parse as JSON, the instance may violate the
schema, or validation passes. -/
inductive SchemaOutcome where
  | valid : SchemaOutcome
  | missing : SchemaOutcome
  | malformed : String → SchemaOutcome
  | invalid : String → SchemaOutcome
  | otherError : String → SchemaOutcome

/-- `validate_config(config_data, schema_path)` (src/main.py lines
91-122): the returned boolean together with the message logged, if any.
With no schema path it returns `True` without logging; every failure
category logs its own message but returns the same `False`. -/
def validate_config (schema_path : Option String) (oc : SchemaOutcome) :
    Bool × Option String :=
  match schema_path with
  | Option.none => (true, Option.none)
  | some p =>
    match oc with
    | .valid => (true, some "Configuration file is valid against the schema.")
    | .missing => (false, some ("Schema file not found: " ++ p))
    | .invalid m => (false, some ("Configuration validation failed: " ++ m))
    | .malformed m => (false, some ("Invalid JSON schema file: " ++ m))
    | .otherError m => (false, some ("Error validating configuration: " ++ m))

/-- The text an output channel receives from `write_diff`/the stdout loop:
each diff line is written as the line followed by `"\n"` (`f.write(line +
"\n")`, and `print(line)` likewise appends a newline). -/
def emittedText : List String → String
  | [] => ""
  | l :: rest => l ++ "\n" ++ emittedText rest

/-- Observable end state of a completed `main` run. -/
structure RunEnd where
  exitCode : Nat
  stdoutText : String
  fileText : Option String
  writeErrorLogged : Bool
  completedLog : Bool
  deriving DecidableEq

/-- `config is None`: only Python's `None` — which is also what a loaded
YAML/JSON `null` document is — passes this test. -/
def isNonePy : PyValue → Bool
  | .none => true
  | _ => false

/-- Result of the driver after the two `load_config` calls succeeded in the
Python sense (no exception escaped): a `sys.exit`, an uncaught exception,
or a completed run. -/
inductive RunResult where
  | exited : Nat → RunResult
  | raised : String → RunResult
  | done : RunEnd → RunResult
  deriving DecidableEq

/-- `main` from the `config1 is None or config2 is None` check onward
(src/main.py lines 185-204), on the two loaded values.  The `None` check
cannot tell a load failure from a loaded `null` document.  With a schema
argument, a `False` from either `validate_config` call exits 1.
`diff_configs` is not guarded, so a serializer `TypeError` escapes `main`.
A non-empty diff goes to the output file when `--output` was given —
`write_diff` swallowing any write error — and to stdout otherwise; the run
then falls through to the completion log and process exit code 0. -/
def mainAfterLoad (config1 config2 : PyValue)
    (schema : Option String) (v1 v2 : SchemaOutcome)
    (output : Option String) (writeFails : Bool) : RunResult :=
  if isNonePy config1 || isNonePy config2 then .exited 1
  else
    if schema.isSome && (!(validate_config schema v1).1 || !(validate_config schema v2).1) then
      .exited 1
    else
      match diff_configsPy config1 config2 with
      | .error e => .raised e
      | .ok diff =>
        if diff.isEmpty then
          .done ⟨0, "", Option.none, false, true⟩
        else
          match output with
          | some _ =>
            .done ⟨0, "",
              if writeFails then Option.none else some (emittedText diff),
              writeFails, true⟩
          | Option.none => .done ⟨0, emittedText diff, Option.none, false, true⟩

/-! ## Basic lemmas -/

mutual
/-- On values embedded from documents, the raising serializer never raises
and agrees with the total serializer. -/
theorem dumpsPy_toPy : ∀ (lvl : Nat) (d : Document),
    json_dumpsPy lvl (toPy d) = .ok (dumpsAt lvl d)
  | _, .null => rfl
  | _, .bool _ => rfl
  | _, .num _ => rfl
  | _, .str _ => rfl
  | _, .arr .nil => rfl
  | lvl, .arr (.cons x xs) => by
    have h := itemsPy_toPyL (lvl+1) (.cons x xs)
    simp only [toPyL] at h
    show json_dumpsPy lvl (.list (.cons (toPy x) (toPyL xs))) = _
    rw [json_dumpsPy, h]
    rfl
  | _, .obj .nil => rfl
  | lvl, .obj (.cons k v kvs) => by
    have h := kvItemsPy_toPyK (lvl+1) (.cons k v kvs)
    simp only [toPyK] at h
    show json_dumpsPy lvl (.dict (.cons k (toPy v) (toPyK kvs))) = _
    rw [json_dumpsPy, h]
    rfl
termination_by structural lvl d => d

/-- `itemsPy` on embedded sequences yields the rendered items. -/
theorem itemsPy_toPyL : ∀ (lvl : Nat) (xs : DocList),
    itemsPy lvl (toPyL xs) = .ok (arrItems lvl xs)
  | _, .nil => rfl
  | lvl, .cons x xs => by
    show itemsPy lvl (.cons (toPy x) (toPyL xs)) = _
    rw [itemsPy, dumpsPy_toPy lvl x, itemsPy_toPyL lvl xs]
    rfl
termination_by structural lvl l => l

/-- `kvItemsPy` on embedded mappings yields the rendered items. -/
theorem kvItemsPy_toPyK : ∀ (lvl : Nat) (kvs : KvList),
    kvItemsPy lvl (toPyK kvs) = .ok (objItems lvl kvs)
  | _, .nil => rfl
  | lvl, .cons k v kvs => by
    show kvItemsPy lvl (.cons k (toPy v) (toPyK kvs)) = _
    rw [kvItemsPy, dumpsPy_toPy lvl v, kvItemsPy_toPyK lvl kvs]
    rfl
termination_by structural lvl l => l
end

/-- `diff_configsPy` on embedded documents never raises and agrees with
`diff_configs`. -/
theorem diff_configsPy_toPy (A B : Document) :
    diff_configsPy (toPy A) (toPy B) = .ok (diff_configs A B) := by
  unfold diff_configsPy diff_configs
  rw [dumpsPy_toPy 0 A, dumpsPy_toPy 0 B]
  rfl

/-- The `None` test on an embedded document detects exactly `null`. -/
theorem isNonePy_toPy (d : Document) : isNonePy (toPy d) = true ↔ d = .null := by
  cases d <;> simp [toPy, isNonePy]


/-! ## Key-order equivalence and canonicalization invariance -/

/-- `true` iff the keys are pairwise distinct (a Python `dict` cannot hold
duplicate keys, so every loaded mapping satisfies this). -/
def nodupKeys : List String → Bool
  | [] => true
  | k :: ks => !(ks.contains k) && nodupKeys ks

mutual
/-- Well-formedness per the spec's data model: every mapping anywhere in
the document has unique keys. -/
def Document.wfB : Document → Bool
  | .null => true
  | .bool _ => true
  | .num _ => true
  | .str _ => true
  | .arr xs => DocList.wfB xs
  | .obj kvs => nodupKeys kvs.keys && KvList.wfB kvs
termination_by structural d => d

/-- Well-formedness of every member of a sequence. -/
def DocList.wfB : DocList → Bool
  | .nil => true
  | .cons x xs => Document.wfB x && DocList.wfB xs
termination_by structural l => l

/-- Well-formedness of every value of a mapping. -/
def KvList.wfB : KvList → Bool
  | .nil => true
  | .cons _ v kvs => Document.wfB v && KvList.wfB kvs
termination_by structural l => l
end

/-- The mapping items as a Lean association list, in insertion order. -/
def KvList.toList : KvList → List (String × Document)
  | .nil => []
  | .cons k v t => (k, v) :: KvList.toList t

mutual
/-- "The same document up to the insertion order of mapping keys, at every
nesting level": scalars are equal, sequences are elementwise equivalent,
and a mapping is related to any permutation (`List.Perm`) of a mapping
with the same keys in the same order and pointwise equivalent values. -/
inductive DocEquiv : Document → Document → Prop
  | null : DocEquiv .null .null
  | bool (b : Bool) : DocEquiv (.bool b) (.bool b)
  | num (i : Int) : DocEquiv (.num i) (.num i)
  | str (s : String) : DocEquiv (.str s) (.str s)
  | arr : ListEquiv xs ys → DocEquiv (.arr xs) (.arr ys)
  | obj (mid : KvList) : KvMid kvs mid → (KvList.toList mid).Perm (KvList.toList kws) →
      DocEquiv (.obj kvs) (.obj kws)

/-- Elementwise equivalence of sequences. -/
inductive ListEquiv : DocList → DocList → Prop
  | nil : ListEquiv .nil .nil
  | cons : DocEquiv x y → ListEquiv xs ys → ListEquiv (.cons x xs) (.cons y ys)

/-- Same keys in the same order, pointwise equivalent values. -/
inductive KvMid : KvList → KvList → Prop
  | nil : KvMid .nil .nil
  | cons (k : String) : DocEquiv v w → KvMid kvs kws →
      KvMid (.cons k v kvs) (.cons k w kws)
end

mutual
/-- The equivalence is reflexive. -/
theorem DocEquiv.reflEquivDoc : ∀ d : Document, DocEquiv d d
  | .null => .null
  | .bool b => .bool b
  | .num i => .num i
  | .str s => .str s
  | .arr xs => .arr (ListEquiv.reflEquivList xs)
  | .obj kvs => .obj kvs (KvMid.reflEquivKv kvs) (List.Perm.refl _)
termination_by structural d => d

theorem ListEquiv.reflEquivList : ∀ xs : DocList, ListEquiv xs xs
  | .nil => .nil
  | .cons x xs => .cons (DocEquiv.reflEquivDoc x) (ListEquiv.reflEquivList xs)
termination_by structural l => l

theorem KvMid.reflEquivKv : ∀ kvs : KvList, KvMid kvs kvs
  | .nil => .nil
  | .cons k v kvs => .cons k (DocEquiv.reflEquivDoc v) (KvMid.reflEquivKv kvs)
termination_by structural l => l
end

theorem nodupKeys_iff (l : List String) : nodupKeys l = true ↔ l.Nodup := by
  induction l with
  | nil => simp [nodupKeys]
  | cons k ks ih => simp [nodupKeys, ih, List.elem_iff]

/-- A mid list has the same keys (in order) as the original. -/
theorem kvMidKeys : ∀ (kvs : KvList) {mid : KvList}, KvMid kvs mid →
    KvList.keys mid = KvList.keys kvs
  | .nil, _, h => by cases h; rfl
  | .cons k v t, _, h => by
    cases h with
    | cons _ _ htl =>
      show _ :: KvList.keys _ = _ :: KvList.keys t
      rw [kvMidKeys t htl]

/-- Rendered items as a map over the association list. -/
theorem objItems_toList (lvl : Nat) : ∀ kvs : KvList,
    objItems lvl kvs = (KvList.toList kvs).map fun p => (p.1, dumpsAt lvl p.2)
  | .nil => rfl
  | .cons k v t => by
    show (k, dumpsAt lvl v) :: objItems lvl t = (k, dumpsAt lvl v) :: _
    rw [objItems_toList lvl t]

/-- The keys of the rendered items are the mapping's keys. -/
theorem objItems_keys (lvl : Nat) : ∀ kvs : KvList,
    (objItems lvl kvs).map Prod.fst = KvList.keys kvs
  | .nil => rfl
  | .cons k v t => by
    show k :: (objItems lvl t).map Prod.fst = k :: KvList.keys t
    rw [objItems_keys lvl t]

/-- Two sorted lists that are permutations of one another and have
pairwise-distinct keys are equal (stability cannot be observed). -/
theorem sorted_nodupkeys_perm_eq : ∀ {S1 S2 : List (String × String)}, S1.Perm S2 →
    S1.Sorted keyLE → S2.Sorted keyLE → (S1.map Prod.fst).Nodup → S1 = S2 := by
  intro S1
  induction S1 with
  | nil =>
    intro S2 hperm _ _ _
    exact (hperm.nil_eq).symm ▸ rfl
  | cons p T1 ih =>
    intro S2 hperm hs1 hs2 hnd
    cases S2 with
    | nil => exact absurd hperm.symm.nil_eq (by simp)
    | cons q T2 =>
      have hpq : p = q := by
        have hpmem : p ∈ q :: T2 := hperm.mem_iff.mp (List.mem_cons_self p T1)
        have hqmem : q ∈ p :: T1 := hperm.mem_iff.mpr (List.mem_cons_self q T2)
        rcases List.mem_cons.mp hpmem with h1 | h1
        · exact h1
        rcases List.mem_cons.mp hqmem with h2 | h2
        · exact h2.symm
        have hple : p.1 ≤ q.1 := (List.sorted_cons.mp hs1).1 q h2
        have hqle : q.1 ≤ p.1 := (List.sorted_cons.mp hs2).1 p h1
        have hkeq : q.1 = p.1 := le_antisymm hqle hple
        exfalso
        have : p.1 ∈ T1.map Prod.fst := by
          rw [← hkeq]
          exact List.mem_map_of_mem Prod.fst h2
        exact (List.nodup_cons.mp hnd).1 this
      subst hpq
      have htl : T1.Perm T2 := hperm.cons_inv
      rw [ih htl (List.sorted_cons.mp hs1).2 (List.sorted_cons.mp hs2).2
        (List.nodup_cons.mp hnd).2]

/-- Sorting two key-permuted item lists with distinct keys gives the same
result. -/
theorem sortPairs_perm_eq {S1 S2 : List (String × String)} (h : S1.Perm S2)
    (hnd : (S1.map Prod.fst).Nodup) : sortPairs S1 = sortPairs S2 := by
  apply sorted_nodupkeys_perm_eq
  · exact ((List.perm_insertionSort keyLE S1).trans h).trans
      (List.perm_insertionSort keyLE S2).symm
  · exact List.sorted_insertionSort keyLE S1
  · exact List.sorted_insertionSort keyLE S2
  · exact ((List.perm_insertionSort keyLE S1).map Prod.fst).nodup_iff.mpr hnd

/-- Rendering a mapping from its sorted (key, rendered value) items. -/
def renderObj (lvl : Nat) (sorted : List (String × String)) : String :=
  if sorted.isEmpty then "\x7b\x7d"
  else "\x7b\n" ++ String.intercalate ",\n"
      (sorted.map fun p => ind (lvl+1) ++ encStr p.1 ++ ": " ++ p.2)
    ++ "\n" ++ ind lvl ++ "\x7d"

/-- Rendering a sequence from its rendered items. -/
def renderArr (lvl : Nat) (items : List String) : String :=
  if items.isEmpty then "[]"
  else "[\n" ++ String.intercalate ",\n" items ++ "\n" ++ ind lvl ++ "]"

theorem orderedInsert_ne_nil (p : String × String) (S : List (String × String)) :
    List.orderedInsert keyLE p S ≠ [] := by
  cases S with
  | nil => simp [List.orderedInsert]
  | cons b t =>
    show (if keyLE p b then p :: b :: t else b :: List.orderedInsert keyLE p t) ≠ []
    split <;> simp

theorem dumpsAt_arr_render (lvl : Nat) (xs : DocList) :
    dumpsAt lvl (.arr xs) = renderArr lvl (arrItems (lvl+1) xs) := by
  cases xs <;> rfl

theorem dumpsAt_obj_render (lvl : Nat) (kvs : KvList) :
    dumpsAt lvl (.obj kvs) = renderObj lvl (sortPairs (objItems (lvl+1) kvs)) := by
  cases kvs with
  | nil => rfl
  | cons k v t =>
    have hne : sortPairs (objItems (lvl+1) (.cons k v t)) ≠ [] := by
      show List.insertionSort keyLE ((k, dumpsAt (lvl+1) v) :: objItems (lvl+1) t) ≠ []
      simp only [List.insertionSort]
      exact orderedInsert_ne_nil _ _
    unfold renderObj
    rw [if_neg (by simpa [List.isEmpty_iff] using hne)]
    rfl

mutual
/-- Canonical serialization is invariant under key-order equivalence on
well-formed documents (the core of C1/C3). -/
theorem docDumpsEq : ∀ (d : Document) (e : Document), DocEquiv d e →
    Document.wfB d = true → ∀ lvl, dumpsAt lvl d = dumpsAt lvl e
  | .null, _, h, _, _ => by cases h; rfl
  | .bool _, _, h, _, _ => by cases h; rfl
  | .num _, _, h, _, _ => by cases h; rfl
  | .str _, _, h, _, _ => by cases h; rfl
  | .arr xs, _, h, hwf, lvl => by
    cases h with
    | arr hl =>
      rw [dumpsAt_arr_render, dumpsAt_arr_render,
          listItemsEq xs _ hl (by simpa [Document.wfB] using hwf) (lvl+1)]
  | .obj kvs, _, h, hwf, lvl => by
    cases h with
    | obj mid hmid hperm =>
      simp only [Document.wfB, Bool.and_eq_true] at hwf
      rw [dumpsAt_obj_render, dumpsAt_obj_render]
      rw [kvMidItemsEq kvs mid hmid hwf.2 (lvl+1)]
      congr 1
      apply sortPairs_perm_eq
      · rw [objItems_toList, objItems_toList]
        exact hperm.map _
      · rw [objItems_keys, kvMidKeys kvs hmid]
        exact (nodupKeys_iff _).mp hwf.1
termination_by structural d => d

/-- Rendered sequence items are invariant elementwise. -/
theorem listItemsEq : ∀ (xs : DocList) (ys : DocList), ListEquiv xs ys →
    DocList.wfB xs = true → ∀ lvl, arrItems lvl xs = arrItems lvl ys
  | .nil, _, h, _, _ => by cases h; rfl
  | .cons x xs, _, h, hwf, lvl => by
    cases h with
    | cons hx hxs =>
      simp only [DocList.wfB, Bool.and_eq_true] at hwf
      show (ind lvl ++ dumpsAt lvl x) :: arrItems lvl xs = _
      rw [docDumpsEq x _ hx hwf.1 lvl, listItemsEq xs _ hxs hwf.2 lvl]
      rfl
termination_by structural l => l

/-- Rendered mapping items agree with the mid list's, literally. -/
theorem kvMidItemsEq : ∀ (kvs : KvList) (mid : KvList), KvMid kvs mid →
    KvList.wfB kvs = true → ∀ lvl, objItems lvl kvs = objItems lvl mid
  | .nil, _, h, _, _ => by cases h; rfl
  | .cons k v t, _, h, hwf, lvl => by
    cases h with
    | cons _ hv htl =>
      simp only [KvList.wfB, Bool.and_eq_true] at hwf
      show (k, dumpsAt lvl v) :: objItems lvl t = _
      rw [docDumpsEq v _ hv hwf.1 lvl, kvMidItemsEq t _ htl hwf.2 lvl]
      rfl
termination_by structural l => l
end

/-! ## The unified diff of a line list against itself is empty

The one nontrivial step is `find_longest_match x x 0 n 0 n = (0, 0, n)`:
the inner dynamic program only ever takes a best match on the diagonal
(`chainLen_le_diag`), and any diagonal best extends to the full range. -/

theorem mem_b2j {x : List String} {v : String} {j : Nat} :
    j ∈ b2j x v ↔ isPopular x v = false ∧ j < x.length ∧ x.getD j "" = v := by
  unfold b2j
  by_cases h : isPopular x v
  · simp [h]
  · simp [h, List.mem_filter, List.mem_range]

theorem b2j_sorted (b : List String) (v : String) : (b2j b v).Pairwise (· < ·) := by
  unfold b2j
  split
  · simp
  · exact (List.pairwise_lt_range _).sublist (List.filter_sublist _)

/-- Length of the `j2len` diagonal chain ending at `(i, j)` when matching a
line list against itself over the full range (`alo = blo = 0`, `bhi` the
length): the value Python's inner loop stores at key `j` in row `i`. -/
def chainLen (x : List String) : Nat → Nat → Nat
  | 0, j => if j ∈ b2j x (x.getD 0 "") then 1 else 0
  | i + 1, 0 => if 0 ∈ b2j x (x.getD (i + 1) "") then 1 else 0
  | i + 1, j + 1 => if j + 1 ∈ b2j x (x.getD (i + 1) "") then chainLen x i j + 1 else 0

theorem chainLen_zero_of_not_mem (x : List String) :
    ∀ i j, j ∉ b2j x (x.getD i "") → chainLen x i j = 0
  | 0, _, h => if_neg h
  | _ + 1, 0, h => if_neg h
  | _ + 1, _ + 1, h => if_neg h

theorem mem_of_chainLen_pos (x : List String) :
    ∀ i j, 0 < chainLen x i j → j ∈ b2j x (x.getD i "")
  | 0, j, h => by by_contra hc; rw [chainLen_zero_of_not_mem x 0 j hc] at h; omega
  | i + 1, 0, h => by by_contra hc; rw [chainLen_zero_of_not_mem x _ _ hc] at h; omega
  | i + 1, j + 1, h => by by_contra hc; rw [chainLen_zero_of_not_mem x _ _ hc] at h; omega

theorem chainLen_le (x : List String) : ∀ i j, chainLen x i j ≤ min i j + 1
  | 0, j => by unfold chainLen; split <;> omega
  | i + 1, 0 => by unfold chainLen; split <;> omega
  | i + 1, j + 1 => by
    show (if j + 1 ∈ b2j x (x.getD (i + 1) "") then chainLen x i j + 1 else 0) ≤ _
    split
    · have := chainLen_le x i j
      omega
    · omega

/-- When matching `x` against itself, no chain beats the diagonal chain at
the smaller of its two coordinates. -/
theorem chainLen_le_diag (x : List String) :
    ∀ i j, chainLen x i j ≤ chainLen x (min i j) (min i j)
  | 0, j => by
    rw [Nat.zero_min]
    show (if j ∈ b2j x (x.getD 0 "") then 1 else 0) ≤ chainLen x 0 0
    by_cases hmem : j ∈ b2j x (x.getD 0 "")
    · rcases mem_b2j.mp hmem with ⟨hpop, hlt, _⟩
      have h0 : (0 : Nat) ∈ b2j x (x.getD 0 "") := mem_b2j.mpr ⟨hpop, by omega, rfl⟩
      rw [if_pos hmem,
        show chainLen x 0 0 = if (0 : Nat) ∈ b2j x (x.getD 0 "") then 1 else 0 from rfl,
        if_pos h0]
    · rw [if_neg hmem]
      omega
  | i + 1, 0 => by
    rw [Nat.min_zero]
    show (if 0 ∈ b2j x (x.getD (i + 1) "") then 1 else 0) ≤ chainLen x 0 0
    by_cases hmem : (0 : Nat) ∈ b2j x (x.getD (i + 1) "")
    · rcases mem_b2j.mp hmem with ⟨hpop, hlt, hval⟩
      have h0 : (0 : Nat) ∈ b2j x (x.getD 0 "") := by
        rw [congrArg (b2j x) hval]
        exact hmem
      rw [if_pos hmem,
        show chainLen x 0 0 = if (0 : Nat) ∈ b2j x (x.getD 0 "") then 1 else 0 from rfl,
        if_pos h0]
    · rw [if_neg hmem]
      omega
  | i + 1, j + 1 => by
    show (if j + 1 ∈ b2j x (x.getD (i + 1) "") then chainLen x i j + 1 else 0) ≤ _
    by_cases hmem : j + 1 ∈ b2j x (x.getD (i + 1) "")
    · rcases mem_b2j.mp hmem with ⟨hpop, hlt, hval⟩
      rw [if_pos hmem]
      have hm : min (i + 1) (j + 1) = min i j + 1 := by omega
      rw [hm]
      have hdmem : min i j + 1 ∈ b2j x (x.getD (min i j + 1) "") := by
        rcases Nat.le_total i j with hij | hij
        · have hmi : min i j = i := by omega
          rw [hmi]
          exact mem_b2j.mpr ⟨hpop, by omega, rfl⟩
        · have hmj : min i j = j := by omega
          rw [hmj]
          refine mem_b2j.mpr ⟨?_, by omega, rfl⟩
          rw [congrArg (isPopular x) hval]
          exact hpop
      rw [show chainLen x (min i j + 1) (min i j + 1)
            = if min i j + 1 ∈ b2j x (x.getD (min i j + 1) "") then
                chainLen x (min i j) (min i j) + 1 else 0 from rfl,
          if_pos hdmem]
      have := chainLen_le_diag x i j
      omega
    · rw [if_neg hmem]
      omega

theorem lookup0_nil (j : Nat) : lookup0 [] j = 0 := rfl

theorem lookup0_cons (j k j0 : Nat) (l : List (Nat × Nat)) :
    lookup0 ((j, k) :: l) j0 = if j0 = j then k else lookup0 l j0 := by
  unfold lookup0
  by_cases h : j0 = j
  · subst h
    simp [List.lookup]
  · have hb : (j0 == j) = false := beq_eq_false_iff_ne.mpr h
    simp [List.lookup, hb, h]

/-- Inner-loop invariant for the self-match: processing any suffix of the
(strictly increasing) occurrence list of row `i` keeps the best diagonal,
in bounds, and dominating all chains seen so far. -/
theorem flmRow_self (x : List String) (i : Nat) (prev : List (Nat × Nat))
    (hprev : ∀ j, lookup0 prev j = if i = 0 then 0 else chainLen x (i - 1) j) :
    ∀ (js : List Nat) (new : List (Nat × Nat)) (best : Nat × Nat × Nat),
      js.Pairwise (· < ·) →
      (∀ e ∈ js, e ∈ b2j x (x.getD i "")) →
      (∀ j, lookup0 new j =
        if j ∈ b2j x (x.getD i "") ∧ j ∉ js then chainLen x i j else 0) →
      best.1 = best.2.1 →
      best.2.1 + best.2.2 ≤ x.length →
      (∀ i' j, i' < i → chainLen x i' j ≤ best.2.2) →
      (∀ j, j ∈ b2j x (x.getD i "") → j ∉ js → chainLen x i j ≤ best.2.2) →
      (∀ j, lookup0 (flmRow 0 x.length i prev js new best).1 j =
          if j ∈ b2j x (x.getD i "") then chainLen x i j else 0)
      ∧ (flmRow 0 x.length i prev js new best).2.1
          = (flmRow 0 x.length i prev js new best).2.2.1
      ∧ (flmRow 0 x.length i prev js new best).2.2.1
          + (flmRow 0 x.length i prev js new best).2.2.2 ≤ x.length
      ∧ (∀ i' j, i' < i → chainLen x i' j ≤ (flmRow 0 x.length i prev js new best).2.2.2)
      ∧ (∀ j, j ∈ b2j x (x.getD i "") →
          chainLen x i j ≤ (flmRow 0 x.length i prev js new best).2.2.2) := by
  intro js
  induction js with
  | nil =>
    intro new best _ _ hnew hd hb h6 h7
    refine ⟨?_, hd, hb, h6, ?_⟩
    · intro j
      show lookup0 new j = _
      rw [hnew j]
      by_cases hj : j ∈ b2j x (x.getD i "")
      · rw [if_pos ⟨hj, by simp⟩, if_pos hj]
      · rw [if_neg (fun hc => hj hc.1), if_neg hj]
    · intro j hj
      exact h7 j hj (by simp)
  | cons j js ih =>
    intro new best hsort hall hnew hd hb h6 h7
    have hjmem : j ∈ b2j x (x.getD i "") := hall j (by simp)
    rcases mem_b2j.mp hjmem with ⟨_, hjlt, _⟩
    have hk : (if j = 0 then 0 else lookup0 prev (j - 1)) + 1 = chainLen x i j := by
      cases j with
      | zero =>
        rw [if_pos rfl]
        cases i with
        | zero =>
          rw [show chainLen x 0 0
              = if (0 : Nat) ∈ b2j x (x.getD 0 "") then 1 else 0 from rfl, if_pos hjmem]
        | succ i0 =>
          rw [show chainLen x (i0 + 1) 0
              = if (0 : Nat) ∈ b2j x (x.getD (i0 + 1) "") then 1 else 0 from rfl,
            if_pos hjmem]
      | succ j0 =>
        rw [if_neg (by omega), hprev (j0 + 1 - 1)]
        cases i with
        | zero =>
          rw [if_pos rfl,
            show chainLen x 0 (j0 + 1)
              = if j0 + 1 ∈ b2j x (x.getD 0 "") then 1 else 0 from rfl, if_pos hjmem]
        | succ i0 =>
          rw [if_neg (by omega)]
          show chainLen x i0 j0 + 1 = chainLen x (i0 + 1) (j0 + 1)
          rw [show chainLen x (i0 + 1) (j0 + 1)
              = if j0 + 1 ∈ b2j x (x.getD (i0 + 1) "") then chainLen x i0 j0 + 1 else 0
              from rfl, if_pos hjmem]
    rw [flmRow, if_neg (by omega : ¬ j < 0), if_neg (by omega : ¬ x.length ≤ j), hk]
    have hjs_sort := (List.pairwise_cons.mp hsort).2
    have hjs_gt := (List.pairwise_cons.mp hsort).1
    have hall' : ∀ e ∈ js, e ∈ b2j x (x.getD i "") :=
      fun e he => hall e (List.mem_cons_of_mem _ he)
    have hjnotin : j ∉ js := fun hh => absurd (hjs_gt j hh) (by omega)
    have hnew' : ∀ j0, lookup0 ((j, chainLen x i j) :: new) j0 =
        if j0 ∈ b2j x (x.getD i "") ∧ j0 ∉ js then chainLen x i j0 else 0 := by
      intro j0
      rw [lookup0_cons]
      by_cases hj0 : j0 = j
      · subst hj0
        rw [if_pos rfl, if_pos ⟨hjmem, hjnotin⟩]
      · rw [if_neg hj0, hnew j0]
        have hiff : (j0 ∈ b2j x (x.getD i "") ∧ j0 ∉ j :: js)
            ↔ (j0 ∈ b2j x (x.getD i "") ∧ j0 ∉ js) := by
          simp [List.mem_cons, hj0]
        rw [if_congr hiff rfl rfl]
    by_cases hlt : best.2.2 < chainLen x i j
    · have hij : j = i := by
        rcases Nat.lt_trichotomy j i with hji | hji | hji
        · exfalso
          have h1 := chainLen_le_diag x i j
          rw [Nat.min_eq_right (Nat.le_of_lt hji)] at h1
          have h2 := h6 j j hji
          omega
        · exact hji
        · exfalso
          have h1 := chainLen_le_diag x i j
          rw [Nat.min_eq_left (Nat.le_of_lt hji)] at h1
          have hpos : 0 < chainLen x i i := by omega
          have himem := mem_of_chainLen_pos x i i hpos
          have hinot : i ∉ j :: js := by
            intro hh
            rcases List.mem_cons.mp hh with h | h
            · omega
            · have := hjs_gt i h
              omega
          have h2 := h7 i himem hinot
          omega
      subst hij
      rw [if_pos hlt]
      refine ih _ _ hjs_sort hall' hnew' rfl ?_ ?_ ?_
      · show j + 1 - chainLen x j j + chainLen x j j ≤ x.length
        have := chainLen_le x j j
        omega
      · intro i' j' h
        have := h6 i' j' h
        show chainLen x i' j' ≤ chainLen x j j
        omega
      · intro j0 hj0 hnot0
        show chainLen x j j0 ≤ chainLen x j j
        by_cases hj0j : j0 = j
        · subst hj0j; omega
        · have := h7 j0 hj0 (by simp [List.mem_cons, hj0j, hnot0])
          omega
    · rw [if_neg hlt]
      refine ih _ _ hjs_sort hall' hnew' hd hb h6 ?_
      intro j0 hj0 hnot0
      by_cases hj0j : j0 = j
      · subst hj0j; omega
      · exact h7 j0 hj0 (by simp [List.mem_cons, hj0j, hnot0])

/-- The row loop keeps the best diagonal and bounded,
starting from row `i` with the previous row's `j2len`. -/
theorem flmRows_self (x : List String) : ∀ (cnt i : Nat) (prev : List (Nat × Nat))
    (best : Nat × Nat × Nat),
    (∀ j, lookup0 prev j = if i = 0 then 0 else chainLen x (i - 1) j) →
    best.1 = best.2.1 → best.2.1 + best.2.2 ≤ x.length →
    (∀ i' j, i' < i → chainLen x i' j ≤ best.2.2) →
    (flmRows x x 0 x.length i cnt prev best).1 = (flmRows x x 0 x.length i cnt prev best).2.1
    ∧ (flmRows x x 0 x.length i cnt prev best).2.1
        + (flmRows x x 0 x.length i cnt prev best).2.2 ≤ x.length := by
  intro cnt
  induction cnt with
  | zero =>
    intro i prev best _ hd hb _
    exact ⟨hd, hb⟩
  | succ cnt ihc =>
    intro i prev best hprev hd hb h6
    have hrow := flmRow_self x i prev hprev (b2j x (x.getD i "")) [] best
      (b2j_sorted x _)
      (fun e he => he)
      (by
        intro j
        rw [lookup0_nil]
        by_cases hj : j ∈ b2j x (x.getD i "") ∧ j ∉ b2j x (x.getD i "")
        · exact absurd hj.1 hj.2
        · rw [if_neg hj])
      hd hb h6
      (fun j hj hnj => absurd hj hnj)
    rw [flmRows]
    exact ihc (i + 1)
      (flmRow 0 x.length i prev (b2j x (x.getD i "")) [] best).1
      (flmRow 0 x.length i prev (b2j x (x.getD i "")) [] best).2
      (by
        intro j
        rw [hrow.1 j, if_neg (by omega : ¬ i + 1 = 0)]
        show _ = chainLen x (i + 1 - 1) j
        rw [show i + 1 - 1 = i from rfl]
        by_cases hj : j ∈ b2j x (x.getD i "")
        · rw [if_pos hj]
        · rw [if_neg hj, chainLen_zero_of_not_mem x i j hj])
      hrow.2.1 hrow.2.2.1
      (by
        intro i' j h
        rcases Nat.lt_or_ge i' i with h' | h'
        · exact hrow.2.2.2.1 i' j h'
        · have : i' = i := by omega
          subst this
          by_cases hj : j ∈ b2j x (x.getD i' "")
          · exact hrow.2.2.2.2 j hj
          · rw [chainLen_zero_of_not_mem x i' j hj]
            omega)

/-- The backward extension loop from a diagonal state reaches the origin. -/
theorem extendBack_self (x : List String) : ∀ (d s : Nat),
    extendBack x x 0 0 d (d, d, s) = (0, 0, s + d) := by
  intro d
  induction d with
  | zero => intro s; rfl
  | succ d ihd =>
    intro s
    rw [extendBack]
    rw [if_pos (by simp)]
    have : d + 1 - 1 = d := by omega
    rw [this]
    rw [ihd (s + 1)]
    have : s + 1 + d = s + (d + 1) := by omega
    rw [this]

/-- The forward extension loop from the origin reaches the full length. -/
theorem extendFwd_self (x : List String) : ∀ (fuel s : Nat), fuel = x.length - s →
    s ≤ x.length → extendFwd x x x.length x.length fuel (0, 0, s) = (0, 0, x.length) := by
  intro fuel
  induction fuel with
  | zero =>
    intro s hf hs
    have : s = x.length := by omega
    rw [extendFwd, this]
  | succ fuel ihf =>
    intro s hf hs
    rw [extendFwd]
    rw [if_pos (by simp; omega)]
    exact ihf (s + 1) (by omega) (by omega)

/-- `find_longest_match` on a list against itself over the full range
returns the whole range. -/
theorem flm_self (x : List String) :
    find_longest_match x x 0 x.length 0 x.length = (0, 0, x.length) := by
  unfold find_longest_match
  have hrows := flmRows_self x (x.length - 0) 0 [] (0, 0, 0)
    (fun j => by rw [lookup0_nil, if_pos rfl])
    rfl (by simp) (by omega)
  rcases hre : flmRows x x 0 x.length 0 (x.length - 0) [] (0, 0, 0) with ⟨d, d2, sz⟩
  rw [hre] at hrows
  simp only at hrows
  obtain ⟨hdd, hbound⟩ := hrows
  subst hdd
  show extendFwd x x x.length x.length _ (extendBack x x 0 0 (d - 0) (d, d, sz)) = _
  rw [Nat.sub_zero, extendBack_self x d sz]
  show extendFwd x x x.length x.length (x.length - (0 + (sz + d))) (0, 0, sz + d) = _
  exact extendFwd_self x _ (sz + d) (by omega) (by omega)

/-- `gmbAux` with an empty stack returns the accumulator. -/
theorem gmbAux_nil (a b : List String) (fuel : Nat) (acc : List (Nat × Nat × Nat)) :
    gmbAux a b fuel [] acc = acc := by
  cases fuel with
  | zero => rfl
  | succ f => rfl

/-- One step of the `gmbAux` stack loop, spelled out. -/
theorem gmbAux_step (a b : List String) (fuel alo ahi blo bhi : Nat)
    (stack : List (Nat × Nat × Nat × Nat)) (acc : List (Nat × Nat × Nat)) :
    gmbAux a b (fuel + 1) ((alo, ahi, blo, bhi) :: stack) acc =
      (let m := find_longest_match a b alo ahi blo bhi
       if m.2.2 = 0 then gmbAux a b fuel stack acc
       else
         let stack1 := if alo < m.1 && blo < m.2.1 then (alo, m.1, blo, m.2.1) :: stack
           else stack
         let stack2 := if m.1 + m.2.2 < ahi && m.2.1 + m.2.2 < bhi then
             (m.1 + m.2.2, ahi, m.2.1 + m.2.2, bhi) :: stack1
           else stack1
         gmbAux a b fuel stack2 (acc ++ [(m.1, m.2.1, m.2.2)])) := rfl

/-- Matching a list against itself yields the single full-length block plus
the sentinel (just the sentinel when the list is empty). -/
theorem gmb_self (x : List String) :
    get_matching_blocks x x =
      if x.length = 0 then [(0, 0, 0)]
      else [(0, 0, x.length), (x.length, x.length, 0)] := by
  have hf := flm_self x
  rcases hl : x.length with _ | n
  · rw [hl] at hf
    rw [if_pos rfl]
    unfold get_matching_blocks
    rw [hl]
    have hg : gmbAux x x (0 + 0 + 1) [(0, 0, 0, 0)] [] = [] := by
      rw [gmbAux_step, hf]
      simp [gmbAux_nil]
    rw [hg]
    rfl
  · rw [hl] at hf
    rw [if_neg (Nat.succ_ne_zero n)]
    unfold get_matching_blocks
    rw [hl]
    have hg : gmbAux x x (n + 1 + (n + 1) + 1) [(0, n + 1, 0, n + 1)] []
        = [(0, 0, n + 1)] := by
      rw [gmbAux_step, hf]
      simp [gmbAux_nil]
    rw [hg]
    show collapseAdj 0 0 0 (List.insertionSort tripleLE [(0, 0, n + 1)])
      ++ [(n + 1, n + 1, 0)] = _
    rw [show List.insertionSort tripleLE [(0, 0, n + 1)] = [(0, 0, n + 1)] from rfl]
    simp [collapseAdj]

/-- `get_opcodes` on a list against itself: empty, or one full `equal`
opcode. -/
theorem opcodes_self (x : List String) :
    get_opcodes x x =
      if x.length = 0 then [] else [(Tag.equal, 0, x.length, 0, x.length)] := by
  have hb := gmb_self x
  unfold get_opcodes
  rcases hl : x.length with _ | n
  · rw [hl] at hb
    rw [if_pos rfl] at hb
    rw [hb, if_pos rfl]
    rfl
  · rw [hl] at hb
    rw [if_neg (Nat.succ_ne_zero n)] at hb
    rw [hb, if_neg (Nat.succ_ne_zero n)]
    simp [opcodesAux]

/-- The grouping loop drops a lone `equal` opcode whose span fits inside the
doubled context. -/
theorem groupLoop_single_equal (n i1 i2 j1 j2 : Nat) (h : i2 - i1 ≤ n + n) :
    groupLoop n [] [(Tag.equal, i1, i2, j1, j2)] = [] := by
  rw [groupLoop, if_neg (by simp; omega)]
  rfl

/-- `get_grouped_opcodes` on a list against itself yields no groups. -/
theorem grouped_self (x : List String) : get_grouped_opcodes x x 3 = [] := by
  have hc := opcodes_self x
  show groupLoop 3 [] (trimLast 3 (trimHead 3
    (if get_opcodes x x = [] then [(Tag.equal, 0, 1, 0, 1)] else get_opcodes x x))) = []
  rcases hl : x.length with _ | n
  · rw [hl] at hc
    rw [if_pos rfl] at hc
    rw [hc]
    rfl
  · rw [hl] at hc
    rw [if_neg (Nat.succ_ne_zero n)] at hc
    rw [hc, if_neg (by simp)]
    rw [show trimLast 3 (trimHead 3 [(Tag.equal, 0, n + 1, 0, n + 1)]) =
      [(Tag.equal, max 0 (n + 1 - 3), min (n + 1) (max 0 (n + 1 - 3) + 3),
        max 0 (n + 1 - 3), min (n + 1) (max 0 (n + 1 - 3) + 3))] from rfl]
    exact groupLoop_single_equal 3 _ _ _ _ (by omega)

/-- `unified_diff` of a line list against itself is empty. -/
theorem unified_self (a : List String) (f t : String) : unified_diff a a f t = [] := by
  unfold unified_diff
  rw [grouped_self a]

/-! ## Validity of the matches difflib finds

Every block `(i, j, k)` that the matcher records is a genuine common run:
`a[i+d] = b[j+d]` for `d < k`, within bounds.  This is what lets the
all-`equal` opcode case force the two line lists to be equal. -/

/-- `k` lines of `a` starting at `i` coincide with `k` lines of `b`
starting at `j`. -/
def matchAt (a b : List String) (i j k : Nat) : Prop :=
  ∀ d, d < k → a.getD (i + d) "" = b.getD (j + d) ""

/-- Validity of a running best match of `find_longest_match` over the
region `[alo, ahi) × [blo, bhi)`: a zero-size best is still the initial
`(alo, blo, 0)`, and a positive one is an in-region common run. -/
def flmValid (a b : List String) (alo blo ahi bhi : Nat) (t : Nat × Nat × Nat) : Prop :=
  (t.2.2 = 0 → t.1 = alo ∧ t.2.1 = blo)
  ∧ (0 < t.2.2 → alo ≤ t.1 ∧ blo ≤ t.2.1 ∧ t.1 + t.2.2 ≤ ahi ∧ t.2.1 + t.2.2 ≤ bhi
      ∧ matchAt a b t.1 t.2.1 t.2.2)

/-- Validity of a `j2len` row whose chains end at row `inext - 1`: a
positive entry at `j` is a diagonal common run ending at `(inext - 1, j)`
that started inside the region. -/
def rowOK (a b : List String) (alo blo bhi inext : Nat) (r : List (Nat × Nat)) : Prop :=
  ∀ j, 0 < lookup0 r j →
    alo + lookup0 r j ≤ inext ∧ blo + lookup0 r j ≤ j + 1 ∧ j < bhi
    ∧ matchAt a b (inext - lookup0 r j) (j + 1 - lookup0 r j) (lookup0 r j)

/-- A diagonal run extends by one matching pair. -/
theorem matchAt_extend (a b : List String) (i j L : Nat) (hLi : L ≤ i) (hLj : L ≤ j)
    (h : matchAt a b (i - L) (j - L) L) (hend : a.getD i "" = b.getD j "") :
    matchAt a b (i - L) (j - L) (L + 1) := by
  intro d hd
  rcases Nat.lt_or_ge d L with h1 | h1
  · exact h d h1
  · have hdL : d = L := by omega
    rw [hdL, show i - L + L = i by omega, show j - L + L = j by omega]
    exact hend

/-- A valid best stays valid when the row bound grows. -/
theorem flmValid_mono (a b : List String) (alo blo ahi ahi2 bhi : Nat) (h : ahi ≤ ahi2)
    (t : Nat × Nat × Nat) (hv : flmValid a b alo blo ahi bhi t) :
    flmValid a b alo blo ahi2 bhi t :=
  ⟨hv.1, fun hp => ⟨(hv.2 hp).1, (hv.2 hp).2.1, le_trans (hv.2 hp).2.2.1 h,
    (hv.2 hp).2.2.2.1, (hv.2 hp).2.2.2.2⟩⟩

/-- The inner loop of `find_longest_match` keeps the new row's chains and
the running best valid. -/
theorem flmRow_valid (a b : List String) (alo blo bhi i : Nat) (hai : alo ≤ i)
    (prev : List (Nat × Nat)) (hprev : rowOK a b alo blo bhi i prev) :
    ∀ (js : List Nat) (new : List (Nat × Nat)) (best : Nat × Nat × Nat),
    (∀ j ∈ js, j < b.length ∧ b.getD j "" = a.getD i "") →
    rowOK a b alo blo bhi (i + 1) new →
    flmValid a b alo blo (i + 1) bhi best →
    rowOK a b alo blo bhi (i + 1) (flmRow blo bhi i prev js new best).1
    ∧ flmValid a b alo blo (i + 1) bhi (flmRow blo bhi i prev js new best).2 := by
  intro js
  induction js with
  | nil => intro new best _ hnew hbest; exact ⟨hnew, hbest⟩
  | cons j js ih =>
    intro new best hjs hnew hbest
    rw [flmRow]
    by_cases h1 : j < blo
    · rw [if_pos h1]
      exact ih new best (fun j2 hj2 => hjs j2 (List.mem_cons_of_mem j hj2)) hnew hbest
    · rw [if_neg h1]
      by_cases h2 : bhi ≤ j
      · rw [if_pos h2]
        exact ⟨hnew, hbest⟩
      · rw [if_neg h2]
        have hjprop := hjs j (List.mem_cons_self j js)
        have hstart : alo + ((if j = 0 then 0 else lookup0 prev (j - 1)) + 1) ≤ i + 1
            ∧ blo + ((if j = 0 then 0 else lookup0 prev (j - 1)) + 1) ≤ j + 1
            ∧ matchAt a b (i + 1 - ((if j = 0 then 0 else lookup0 prev (j - 1)) + 1))
                (j + 1 - ((if j = 0 then 0 else lookup0 prev (j - 1)) + 1))
                ((if j = 0 then 0 else lookup0 prev (j - 1)) + 1) := by
          by_cases hj0 : j = 0
          · rw [if_pos hj0]
            subst hj0
            refine ⟨by omega, by omega, ?_⟩
            intro d hd
            have hd0 : d = 0 := by omega
            subst hd0
            rw [show i + 1 - (0 + 1) + 0 = i by omega, show 0 + 1 - (0 + 1) + 0 = 0 by omega]
            exact hjprop.2.symm
          · rw [if_neg hj0]
            rcases Nat.eq_zero_or_pos (lookup0 prev (j - 1)) with hL | hL
            · rw [hL]
              refine ⟨by omega, by omega, ?_⟩
              intro d hd
              have hd0 : d = 0 := by omega
              subst hd0
              rw [show i + 1 - (0 + 1) + 0 = i by omega,
                show j + 1 - (0 + 1) + 0 = j by omega]
              exact hjprop.2.symm
            · obtain ⟨hp1, hp2, _, hpm⟩ := hprev (j - 1) hL
              have hj1 : j - 1 + 1 = j := by omega
              rw [hj1] at hp2 hpm
              refine ⟨by omega, by omega, ?_⟩
              rw [show i + 1 - (lookup0 prev (j - 1) + 1) = i - lookup0 prev (j - 1) by omega,
                show j + 1 - (lookup0 prev (j - 1) + 1) = j - lookup0 prev (j - 1) by omega]
              exact matchAt_extend a b i j (lookup0 prev (j - 1)) (by omega) (by omega)
                hpm hjprop.2.symm
        refine ih _ _ (fun j2 hj2 => hjs j2 (List.mem_cons_of_mem j hj2)) ?_ ?_
        · intro j2 hj2
          rw [lookup0_cons] at hj2 ⊢
          by_cases hjeq : j2 = j
          · rw [if_pos hjeq] at hj2 ⊢
            subst hjeq
            exact ⟨hstart.1, hstart.2.1, by omega, hstart.2.2⟩
          · rw [if_neg hjeq] at hj2 ⊢
            exact hnew j2 hj2
        · by_cases hupd :
              best.2.2 < (if j = 0 then 0 else lookup0 prev (j - 1)) + 1
          · rw [if_pos hupd]
            refine ⟨fun h0 => absurd h0 (Nat.succ_ne_zero _), fun _ => ⟨?_, ?_, ?_, ?_, ?_⟩⟩
            · show alo ≤ i + 1 - ((if j = 0 then 0 else lookup0 prev (j - 1)) + 1)
              have := hstart.1
              omega
            · show blo ≤ j + 1 - ((if j = 0 then 0 else lookup0 prev (j - 1)) + 1)
              have := hstart.2.1
              omega
            · rw [show i + 1 - ((if j = 0 then 0 else lookup0 prev (j - 1)) + 1)
                  + ((if j = 0 then 0 else lookup0 prev (j - 1)) + 1) = i + 1 by
                have := hstart.1
                omega]
            · rw [show j + 1 - ((if j = 0 then 0 else lookup0 prev (j - 1)) + 1)
                  + ((if j = 0 then 0 else lookup0 prev (j - 1)) + 1) = j + 1 by
                have := hstart.2.1
                omega]
              omega
            · exact hstart.2.2
          · rw [if_neg hupd]
            exact hbest

/-- The row loop of `find_longest_match` keeps the running best valid. -/
theorem flmRows_valid (a b : List String) (alo blo bhi : Nat) :
    ∀ (cnt i : Nat) (prev : List (Nat × Nat)) (best : Nat × Nat × Nat),
    alo ≤ i →
    (∀ j ∈ b2j b (a.getD i ""), j < b.length ∧ b.getD j "" = a.getD i "") →
    rowOK a b alo blo bhi i prev →
    flmValid a b alo blo i bhi best →
    flmValid a b alo blo (i + cnt) bhi (flmRows a b blo bhi i cnt prev best) := by
  intro cnt
  induction cnt with
  | zero =>
    intro i prev best hai _ hrow hbest
    exact hbest
  | succ cnt ihc =>
    intro i prev best hai hb2j hrow hbest
    rw [flmRows]
    have hst := flmRow_valid a b alo blo bhi i hai prev hrow
      (b2j b (a.getD i "")) [] best hb2j
      (fun j h0 => by rw [lookup0_nil] at h0; exact absurd h0 (lt_irrefl 0))
      (flmValid_mono a b alo blo i (i + 1) bhi (by omega) best hbest)
    rw [show i + (cnt + 1) = (i + 1) + cnt by omega]
    exact ihc (i + 1) _ _ (by omega)
      (fun j hj => ⟨(mem_b2j.mp hj).2.1, (mem_b2j.mp hj).2.2⟩)
      hst.1 hst.2

/-- The backward extension loop keeps the best valid. -/
theorem extendBack_valid (a b : List String) (alo blo ahi bhi : Nat) :
    ∀ (fuel : Nat) (best : Nat × Nat × Nat),
    flmValid a b alo blo ahi bhi best →
    flmValid a b alo blo ahi bhi (extendBack a b alo blo fuel best) := by
  intro fuel
  induction fuel with
  | zero => intro best h; exact h
  | succ fuel ih =>
    intro best h
    rcases best with ⟨bi, bj, bs⟩
    rw [extendBack]
    by_cases hg : (alo < bi && blo < bj
        && (a.getD (bi - 1) "" == b.getD (bj - 1) "")) = true
    · rw [if_pos hg]
      simp only [Bool.and_eq_true, decide_eq_true_eq, beq_iff_eq] at hg
      obtain ⟨⟨h1, h2⟩, h3⟩ := hg
      have hpos0 : 0 < bs := by
        by_contra h0
        have hbs : bs = 0 := by omega
        have hz := h.1 hbs
        simp only at hz
        omega
      obtain ⟨ha1, ha2, ha3, ha4, hm⟩ := h.2 hpos0
      simp only at ha1 ha2 ha3 ha4 hm
      apply ih
      refine ⟨fun h0 => absurd h0 (by simp), fun _ => ⟨?_, ?_, ?_, ?_, ?_⟩⟩
      · show alo ≤ bi - 1
        omega
      · show blo ≤ bj - 1
        omega
      · show bi - 1 + (bs + 1) ≤ ahi
        omega
      · show bj - 1 + (bs + 1) ≤ bhi
        omega
      · show matchAt a b (bi - 1) (bj - 1) (bs + 1)
        intro d hd
        cases d with
        | zero =>
          rw [show bi - 1 + 0 = bi - 1 by omega, show bj - 1 + 0 = bj - 1 by omega]
          exact h3
        | succ d =>
          rw [show bi - 1 + (d + 1) = bi + d by omega,
            show bj - 1 + (d + 1) = bj + d by omega]
          exact hm d (by omega)
    · rw [if_neg hg]
      exact h

/-- The forward extension loop keeps the best valid. -/
theorem extendFwd_valid (a b : List String) (alo blo ahi bhi : Nat) :
    ∀ (fuel : Nat) (best : Nat × Nat × Nat),
    flmValid a b alo blo ahi bhi best →
    flmValid a b alo blo ahi bhi (extendFwd a b ahi bhi fuel best) := by
  intro fuel
  induction fuel with
  | zero => intro best h; exact h
  | succ fuel ih =>
    intro best h
    rcases best with ⟨bi, bj, bs⟩
    rw [extendFwd]
    by_cases hg : (bi + bs < ahi && bj + bs < bhi
        && (a.getD (bi + bs) "" == b.getD (bj + bs) "")) = true
    · rw [if_pos hg]
      simp only [Bool.and_eq_true, decide_eq_true_eq, beq_iff_eq] at hg
      obtain ⟨⟨h1, h2⟩, h3⟩ := hg
      have hfront : alo ≤ bi ∧ blo ≤ bj := by
        rcases Nat.eq_zero_or_pos bs with hbs | hbs
        · have hz := h.1 hbs
          simp only at hz
          omega
        · exact ⟨(h.2 hbs).1, (h.2 hbs).2.1⟩
      have hmatch : matchAt a b bi bj bs := by
        rcases Nat.eq_zero_or_pos bs with hbs | hbs
        · intro d hd; omega
        · exact (h.2 hbs).2.2.2.2
      apply ih
      refine ⟨fun h0 => absurd h0 (Nat.succ_ne_zero _), fun _ =>
        ⟨hfront.1, hfront.2, ?_, ?_, ?_⟩⟩
      · show bi + (bs + 1) ≤ ahi
        omega
      · show bj + (bs + 1) ≤ bhi
        omega
      · show matchAt a b bi bj (bs + 1)
        intro d hd
        rcases Nat.lt_or_ge d bs with hdl | hdl
        · exact hmatch d hdl
        · have hds : d = bs := by omega
          rw [hds]
          exact h3
    · rw [if_neg hg]
      exact h

/-- `find_longest_match` returns a valid best over its region. -/
theorem flm_valid (a b : List String) (alo ahi blo bhi : Nat) (hab : alo ≤ ahi) :
    flmValid a b alo blo ahi bhi (find_longest_match a b alo ahi blo bhi) := by
  unfold find_longest_match
  apply extendFwd_valid
  apply extendBack_valid
  have hrows := flmRows_valid a b alo blo bhi (ahi - alo) alo [] (alo, blo, 0)
    (le_refl alo)
    (fun j hj => ⟨(mem_b2j.mp hj).2.1, (mem_b2j.mp hj).2.2⟩)
    (fun j h0 => by rw [lookup0_nil] at h0; exact absurd h0 (lt_irrefl 0))
    ⟨fun _ => ⟨rfl, rfl⟩, fun h0 => absurd h0 (by simp)⟩
  rw [show alo + (ahi - alo) = ahi by omega] at hrows
  exact hrows

/-- A recorded matching block is an in-bounds common run. -/
def validBlock (a b : List String) (t : Nat × Nat × Nat) : Prop :=
  t.1 + t.2.2 ≤ a.length ∧ t.2.1 + t.2.2 ≤ b.length ∧ matchAt a b t.1 t.2.1 t.2.2

/-- Every block the stack loop records is valid, starting from in-bounds
ordered regions and valid accumulated blocks. -/
theorem gmbAux_valid (a b : List String) : ∀ (fuel : Nat)
    (stack : List (Nat × Nat × Nat × Nat)) (acc : List (Nat × Nat × Nat)),
    (∀ r ∈ stack, r.1 ≤ r.2.1 ∧ r.2.2.1 ≤ r.2.2.2
      ∧ r.2.1 ≤ a.length ∧ r.2.2.2 ≤ b.length) →
    (∀ t ∈ acc, validBlock a b t) →
    ∀ t ∈ gmbAux a b fuel stack acc, validBlock a b t := by
  intro fuel
  induction fuel with
  | zero => intro stack acc _ hacc; exact hacc
  | succ fuel ih =>
    intro stack acc hstack hacc
    rcases stack with _ | ⟨⟨alo, ahi, blo, bhi⟩, stack⟩
    · exact hacc
    · obtain ⟨hr1, hr2, hr3, hr4⟩ := hstack _ (List.mem_cons_self _ _)
      simp only at hr1 hr2 hr3 hr4
      have hstack2 := fun r hr => hstack r (List.mem_cons_of_mem _ hr)
      have hv := flm_valid a b alo ahi blo bhi hr1
      rcases hm : find_longest_match a b alo ahi blo bhi with ⟨mi, mj, mk⟩
      rw [hm] at hv
      have hrw : gmbAux a b (fuel + 1) ((alo, ahi, blo, bhi) :: stack) acc
          = if mk = 0 then gmbAux a b fuel stack acc
            else gmbAux a b fuel
              (if mi + mk < ahi && mj + mk < bhi then
                 (mi + mk, ahi, mj + mk, bhi)
                   :: (if alo < mi && blo < mj then (alo, mi, blo, mj) :: stack else stack)
               else (if alo < mi && blo < mj then (alo, mi, blo, mj) :: stack else stack))
              (acc ++ [(mi, mj, mk)]) := by
        rw [gmbAux_step, hm]
      rw [hrw]
      by_cases hk : mk = 0
      · rw [if_pos hk]
        exact ih _ _ hstack2 hacc
      · rw [if_neg hk]
        obtain ⟨hv1, hv2, hv3, hv4, hvm⟩ := hv.2 (Nat.pos_of_ne_zero hk)
        simp only at hv1 hv2 hv3 hv4 hvm
        have hstack3 : ∀ r ∈ (if alo < mi && blo < mj then (alo, mi, blo, mj) :: stack
            else stack), r.1 ≤ r.2.1 ∧ r.2.2.1 ≤ r.2.2.2
              ∧ r.2.1 ≤ a.length ∧ r.2.2.2 ≤ b.length := by
          by_cases hc : (alo < mi && blo < mj) = true
          · rw [if_pos hc]
            simp only [Bool.and_eq_true, decide_eq_true_eq] at hc
            intro r hr
            rcases List.mem_cons.mp hr with rfl | hr
            · exact ⟨show alo ≤ mi by omega, show blo ≤ mj by omega,
                show mi ≤ a.length by omega, show mj ≤ b.length by omega⟩
            · exact hstack2 r hr
          · rw [if_neg hc]
            exact hstack2
        have hstack4 : ∀ r ∈ (if mi + mk < ahi && mj + mk < bhi then
              (mi + mk, ahi, mj + mk, bhi)
                :: (if alo < mi && blo < mj then (alo, mi, blo, mj) :: stack else stack)
            else (if alo < mi && blo < mj then (alo, mi, blo, mj) :: stack else stack)),
            r.1 ≤ r.2.1 ∧ r.2.2.1 ≤ r.2.2.2 ∧ r.2.1 ≤ a.length ∧ r.2.2.2 ≤ b.length := by
          by_cases hc : (mi + mk < ahi && mj + mk < bhi) = true
          · rw [if_pos hc]
            simp only [Bool.and_eq_true, decide_eq_true_eq] at hc
            intro r hr
            rcases List.mem_cons.mp hr with rfl | hr
            · exact ⟨show mi + mk ≤ ahi by omega, show mj + mk ≤ bhi by omega,
                show ahi ≤ a.length from hr3, show bhi ≤ b.length from hr4⟩
            · exact hstack3 r hr
          · rw [if_neg hc]
            exact hstack3
        refine ih _ _ hstack4 ?_
        intro t2 ht2
        rcases List.mem_append.mp ht2 with h1 | h1
        · exact hacc t2 h1
        · have he : t2 = (mi, mj, mk) := List.mem_singleton.mp h1
          rw [he]
          exact ⟨show mi + mk ≤ a.length by omega, show mj + mk ≤ b.length by omega, hvm⟩

/-- The adjacent-block collapse preserves validity. -/
theorem collapseAdj_valid (a b : List String) :
    ∀ (l : List (Nat × Nat × Nat)) (i1 j1 k1 : Nat),
    validBlock a b (i1, j1, k1) → (∀ t ∈ l, validBlock a b t) →
    ∀ t ∈ collapseAdj i1 j1 k1 l, validBlock a b t := by
  intro l
  induction l with
  | nil =>
    intro i1 j1 k1 hrun _ t ht
    rw [collapseAdj] at ht
    by_cases hk : k1 = 0
    · rw [if_pos hk] at ht
      simp at ht
    · rw [if_neg hk] at ht
      rw [List.mem_singleton.mp ht]
      exact hrun
  | cons hd rest ih =>
    rcases hd with ⟨i2, j2, k2⟩
    intro i1 j1 k1 hrun hl t ht
    rw [collapseAdj] at ht
    by_cases hc : (i1 + k1 = i2 && j1 + k1 = j2) = true
    · rw [if_pos hc] at ht
      simp only [Bool.and_eq_true, decide_eq_true_eq] at hc
      have h2 := hl (i2, j2, k2) (List.mem_cons_self _ _)
      obtain ⟨hb1, hb2, hbm⟩ := h2
      obtain ⟨ha1, ha2, ham⟩ := hrun
      simp only at hb1 hb2 hbm ha1 ha2 ham
      refine ih i1 j1 (k1 + k2) ⟨?_, ?_, ?_⟩
        (fun t2 ht2 => hl t2 (List.mem_cons_of_mem _ ht2)) t ht
      · show i1 + (k1 + k2) ≤ a.length
        omega
      · show j1 + (k1 + k2) ≤ b.length
        omega
      · show matchAt a b i1 j1 (k1 + k2)
        intro d hd2
        rcases Nat.lt_or_ge d k1 with h1 | h1
        · exact ham d h1
        · rw [show i1 + d = i2 + (d - k1) by omega, show j1 + d = j2 + (d - k1) by omega]
          exact hbm (d - k1) (by omega)
    · rw [if_neg hc] at ht
      rcases List.mem_append.mp ht with h1 | h1
      · by_cases hk : k1 = 0
        · rw [if_pos hk] at h1
          simp at h1
        · rw [if_neg hk] at h1
          rw [List.mem_singleton.mp h1]
          exact hrun
      · exact ih i2 j2 k2 (hl (i2, j2, k2) (List.mem_cons_self _ _))
          (fun t2 ht2 => hl t2 (List.mem_cons_of_mem _ ht2)) t h1

/-- Every collapsed block has positive size. -/
theorem collapseAdj_pos :
    ∀ (l : List (Nat × Nat × Nat)) (i1 j1 k1 : Nat),
    ∀ t ∈ collapseAdj i1 j1 k1 l, 0 < t.2.2 := by
  intro l
  induction l with
  | nil =>
    intro i1 j1 k1 t ht
    rw [collapseAdj] at ht
    by_cases hk : k1 = 0
    · rw [if_pos hk] at ht
      simp at ht
    · rw [if_neg hk] at ht
      rw [List.mem_singleton.mp ht]
      show 0 < k1
      omega
  | cons hd rest ih =>
    rcases hd with ⟨i2, j2, k2⟩
    intro i1 j1 k1 t ht
    rw [collapseAdj] at ht
    by_cases hc : (i1 + k1 = i2 && j1 + k1 = j2) = true
    · rw [if_pos hc] at ht
      exact ih i1 j1 (k1 + k2) t ht
    · rw [if_neg hc] at ht
      rcases List.mem_append.mp ht with h1 | h1
      · by_cases hk : k1 = 0
        · rw [if_pos hk] at h1
          simp at h1
        · rw [if_neg hk] at h1
          rw [List.mem_singleton.mp h1]
          show 0 < k1
          omega
      · exact ih i2 j2 k2 t h1

/-- All non-sentinel blocks of `get_matching_blocks` are valid and have
positive size. -/
theorem matching_blocks_core (a b : List String) :
    ∀ t ∈ collapseAdj 0 0 0 (List.insertionSort tripleLE
        (gmbAux a b (a.length + b.length + 1) [(0, a.length, 0, b.length)] [])),
      validBlock a b t ∧ 0 < t.2.2 := by
  intro t ht
  refine ⟨?_, collapseAdj_pos _ 0 0 0 t ht⟩
  refine collapseAdj_valid a b _ 0 0 0
    ⟨by simp, by simp, fun d hd => absurd hd (Nat.not_lt_zero d)⟩ ?_ t ht
  intro t2 ht2
  have ht3 : t2 ∈ gmbAux a b (a.length + b.length + 1) [(0, a.length, 0, b.length)] [] :=
    ((List.perm_insertionSort tripleLE _).mem_iff).mp ht2
  refine gmbAux_valid a b _ _ _ ?_ (by intro t3 ht4; simp at ht4) t2 ht3
  intro r hr
  rw [List.mem_singleton.mp hr]
  exact ⟨Nat.zero_le _, Nat.zero_le _, le_refl _, le_refl _⟩

/-- The gap opcodes of one walk step vanish exactly when the block starts
at or before the current position. -/
theorem gapOps (i ai j bj : Nat) :
    (if i < ai && j < bj then [(Tag.replace, i, ai, j, bj)]
     else if i < ai then [(Tag.delete, i, ai, j, bj)]
     else if j < bj then [(Tag.insert, i, ai, j, bj)]
     else ([] : List Op)) = [] ↔ (ai ≤ i ∧ bj ≤ j) := by
  by_cases h1 : i < ai
  · by_cases h2 : j < bj
    · rw [if_pos (by simp [h1, h2])]
      simp
      omega
    · rw [if_neg (by simp [h2]), if_pos h1]
      simp
      omega
  · by_cases h2 : j < bj
    · rw [if_neg (by simp [h1]), if_neg h1, if_pos h2]
      simp
      omega
    · rw [if_neg (by simp [h1]), if_neg h1, if_neg h2]
      simp
      omega

/-- Gap opcodes never carry the `equal` tag. -/
theorem gapOps_ne_equal (i ai j bj : Nat) (e : Op)
    (he : e ∈ (if i < ai && j < bj then [(Tag.replace, i, ai, j, bj)]
     else if i < ai then [(Tag.delete, i, ai, j, bj)]
     else if j < bj then [(Tag.insert, i, ai, j, bj)]
     else ([] : List Op))) : e.1 ≠ Tag.equal := by
  by_cases h1 : i < ai
  · by_cases h2 : j < bj
    · rw [if_pos (by simp [h1, h2])] at he
      rw [List.mem_singleton.mp he]
      simp
    · rw [if_neg (by simp [h2]), if_pos h1] at he
      rw [List.mem_singleton.mp he]
      simp
  · by_cases h2 : j < bj
    · rw [if_neg (by simp [h1]), if_neg h1, if_pos h2] at he
      rw [List.mem_singleton.mp he]
      simp
    · rw [if_neg (by simp [h1]), if_neg h1, if_neg h2] at he
      simp at he

/-- If the opcode walk over valid positive blocks plus the sentinel yields
nothing, the positions already cover both lists; if it yields a single
`equal` opcode, one block covers everything from the current positions. -/
theorem walk_structure (a b : List String) : ∀ (bl : List (Nat × Nat × Nat)) (i j : Nat),
    (∀ t ∈ bl, validBlock a b t ∧ 0 < t.2.2) →
    (opcodesAux i j (bl ++ [(a.length, b.length, 0)]) = [] →
        a.length ≤ i ∧ b.length ≤ j)
    ∧ (∀ e : Op, opcodesAux i j (bl ++ [(a.length, b.length, 0)]) = [e]
        → e.1 = Tag.equal →
        ∃ ai bj k, (ai, bj, k) ∈ bl ∧ ai ≤ i ∧ bj ≤ j
          ∧ a.length ≤ ai + k ∧ b.length ≤ bj + k) := by
  intro bl
  induction bl with
  | nil =>
    intro i j _
    rw [List.nil_append, opcodesAux, if_pos rfl,
      show opcodesAux (a.length + 0) (b.length + 0) ([] : List (Nat × Nat × Nat)) = []
        from rfl, List.append_nil, List.append_nil]
    constructor
    · intro he
      exact (gapOps i a.length j b.length).mp he
    · intro e he htag
      exact absurd htag (gapOps_ne_equal i a.length j b.length e
        (by rw [he]; exact List.mem_cons_self _ _))
  | cons hd rest ih =>
    rcases hd with ⟨ai, bj, k⟩
    intro i j hbl
    obtain ⟨hvb, hkpos⟩ := hbl _ (List.mem_cons_self _ _)
    simp only at hkpos
    have hrest := fun t ht => hbl t (List.mem_cons_of_mem _ ht)
    rw [List.cons_append, opcodesAux, if_neg (show ¬ k = 0 by omega)]
    constructor
    · intro he
      exfalso
      rcases List.append_eq_nil.mp he with ⟨h12, _⟩
      rcases List.append_eq_nil.mp h12 with ⟨_, h2⟩
      simp at h2
    · intro e he htag
      by_cases hij : ai ≤ i ∧ bj ≤ j
      · rw [(gapOps i ai j bj).mpr hij, List.nil_append, List.singleton_append] at he
        injection he with h1 hW
        have hend := (ih (ai + k) (bj + k) hrest).1 hW
        exact ⟨ai, bj, k, List.mem_cons_self _ _, hij.1, hij.2,
          by omega, by omega⟩
      · exfalso
        have hne : (if i < ai && j < bj then [(Tag.replace, i, ai, j, bj)]
            else if i < ai then [(Tag.delete, i, ai, j, bj)]
            else if j < bj then [(Tag.insert, i, ai, j, bj)]
            else ([] : List Op)) ≠ [] := fun hnil => hij ((gapOps i ai j bj).mp hnil)
        obtain ⟨g0, gs, hgs⟩ := List.exists_cons_of_ne_nil hne
        rw [hgs, List.cons_append, List.cons_append] at he
        injection he with h1 h2
        rcases List.append_eq_nil.mp h2 with ⟨h3, _⟩
        rcases List.append_eq_nil.mp h3 with ⟨_, h4⟩
        simp at h4

/-- A run of the grouping loop that yields no groups left at most one
opcode, an `equal` one, unemitted. -/
theorem groupLoop_nil (n : Nat) : ∀ (codes group : List Op),
    groupLoop n group codes = [] →
    group ++ codes = [] ∨ ∃ e : Op, group ++ codes = [e] ∧ e.1 = Tag.equal := by
  intro codes
  induction codes with
  | nil =>
    intro group h
    rcases group with _ | ⟨⟨tag, i1, i2, j1, j2⟩, grest⟩
    · exact Or.inl rfl
    · rcases grest with _ | ⟨g2, grest⟩
      · cases tag with
        | equal => exact Or.inr ⟨(Tag.equal, i1, i2, j1, j2), by simp, rfl⟩
        | replace =>
          rw [show groupLoop n [(Tag.replace, i1, i2, j1, j2)] []
            = [[(Tag.replace, i1, i2, j1, j2)]] from rfl] at h
          simp at h
        | delete =>
          rw [show groupLoop n [(Tag.delete, i1, i2, j1, j2)] []
            = [[(Tag.delete, i1, i2, j1, j2)]] from rfl] at h
          simp at h
        | insert =>
          rw [show groupLoop n [(Tag.insert, i1, i2, j1, j2)] []
            = [[(Tag.insert, i1, i2, j1, j2)]] from rfl] at h
          simp at h
      · cases tag with
        | equal =>
          rw [show groupLoop n ((Tag.equal, i1, i2, j1, j2) :: g2 :: grest) []
            = [(Tag.equal, i1, i2, j1, j2) :: g2 :: grest] from rfl] at h
          simp at h
        | replace =>
          rw [show groupLoop n ((Tag.replace, i1, i2, j1, j2) :: g2 :: grest) []
            = [(Tag.replace, i1, i2, j1, j2) :: g2 :: grest] from rfl] at h
          simp at h
        | delete =>
          rw [show groupLoop n ((Tag.delete, i1, i2, j1, j2) :: g2 :: grest) []
            = [(Tag.delete, i1, i2, j1, j2) :: g2 :: grest] from rfl] at h
          simp at h
        | insert =>
          rw [show groupLoop n ((Tag.insert, i1, i2, j1, j2) :: g2 :: grest) []
            = [(Tag.insert, i1, i2, j1, j2) :: g2 :: grest] from rfl] at h
          simp at h
  | cons c crest ihc =>
    rcases c with ⟨tag, i1, i2, j1, j2⟩
    intro group h
    rw [groupLoop] at h
    by_cases hc : (tag = Tag.equal && n + n < i2 - i1) = true
    · rw [if_pos hc] at h
      simp at h
    · rw [if_neg hc] at h
      rcases ihc (group ++ [(tag, i1, i2, j1, j2)]) h with h1 | ⟨e, he, hetag⟩
      · rw [List.append_assoc, List.singleton_append] at h1
        exact Or.inl h1
      · rw [List.append_assoc, List.singleton_append] at he
        exact Or.inr ⟨e, he, hetag⟩

/-- The head trim preserves the number of opcodes. -/
theorem trimHead_length (n : Nat) (l : List Op) : (trimHead n l).length = l.length := by
  rcases l with _ | ⟨⟨tag, i1, i2, j1, j2⟩, rest⟩
  · rfl
  · cases tag <;> rfl

/-- The tail trim preserves the number of opcodes. -/
theorem trimLast_length (n : Nat) (l : List Op) : (trimLast n l).length = l.length := by
  unfold trimLast
  rcases hl : l.getLast? with _ | ⟨⟨tag, i1, i2, j1, j2⟩⟩
  · rfl
  · cases tag with
    | equal =>
      show (l.dropLast ++ [(Tag.equal, i1, min i2 (i1 + n), j1, min j2 (j1 + n))]).length
        = l.length
      rw [List.length_append, List.length_dropLast]
      have hne : l ≠ [] := by
        intro hnil
        rw [hnil] at hl
        simp at hl
      have := List.length_pos.mpr hne
      show l.length - 1 + 1 = l.length
      omega
    | replace => rfl
    | delete => rfl
    | insert => rfl

/-- When grouping yields nothing, the opcode list was empty or one `equal`
opcode. -/
theorem grouped_nil_cases (a b : List String)
    (h : get_grouped_opcodes a b 3 = []) :
    get_opcodes a b = [] ∨ ∃ e : Op, get_opcodes a b = [e] ∧ e.1 = Tag.equal := by
  rcases hc : get_opcodes a b with _ | ⟨⟨tag, i1, i2, j1, j2⟩, cs⟩
  · exact Or.inl rfl
  · right
    have h2 : groupLoop 3 [] (trimLast 3 (trimHead 3 ((tag, i1, i2, j1, j2) :: cs))) = [] := by
      rw [show get_grouped_opcodes a b 3
          = groupLoop 3 [] (trimLast 3 (trimHead 3
            (if get_opcodes a b = [] then [(Tag.equal, 0, 1, 0, 1)]
             else get_opcodes a b)))
        from rfl, hc, if_neg (by simp)] at h
      exact h
    rcases groupLoop_nil 3 _ [] h2 with h3 | ⟨e, he, hetag⟩
    · rw [List.nil_append] at h3
      exfalso
      have := congrArg List.length h3
      rw [trimLast_length, trimHead_length] at this
      simp at this
    · rw [List.nil_append] at he
      have hlen := congrArg List.length he
      rw [trimLast_length, trimHead_length] at hlen
      simp at hlen
      have hcs : cs = [] := List.length_eq_zero.mp (by simpa using hlen)
      subst hcs
      cases tag with
      | equal => exact ⟨(Tag.equal, i1, i2, j1, j2), rfl, rfl⟩
      | replace =>
        rw [show trimLast 3 (trimHead 3 [((Tag.replace : Tag), i1, i2, j1, j2)])
          = [(Tag.replace, i1, i2, j1, j2)] from rfl] at he
        injection he with h4 _
        rw [← h4] at hetag
        simp at hetag
      | delete =>
        rw [show trimLast 3 (trimHead 3 [((Tag.delete : Tag), i1, i2, j1, j2)])
          = [(Tag.delete, i1, i2, j1, j2)] from rfl] at he
        injection he with h4 _
        rw [← h4] at hetag
        simp at hetag
      | insert =>
        rw [show trimLast 3 (trimHead 3 [((Tag.insert : Tag), i1, i2, j1, j2)])
          = [(Tag.insert, i1, i2, j1, j2)] from rfl] at he
        injection he with h4 _
        rw [← h4] at hetag
        simp at hetag

/-- `get_opcodes` of one possibly-trivial shape forces the two line lists
to be equal. -/
theorem get_opcodes_trivial (a b : List String)
    (h : get_opcodes a b = [] ∨ ∃ e : Op, get_opcodes a b = [e] ∧ e.1 = Tag.equal) :
    a = b := by
  have hw := walk_structure a b
    (collapseAdj 0 0 0 (List.insertionSort tripleLE
      (gmbAux a b (a.length + b.length + 1) [(0, a.length, 0, b.length)] [])))
    0 0 (matching_blocks_core a b)
  rcases h with h | ⟨e, he, htag⟩
  · obtain ⟨h1, h2⟩ := hw.1 h
    rw [List.eq_nil_of_length_eq_zero (by omega : a.length = 0),
      List.eq_nil_of_length_eq_zero (by omega : b.length = 0)]
  · obtain ⟨ai, bj, k, hmem, hai, hbj, hla, hlb⟩ := hw.2 e he htag
    obtain ⟨⟨hv1, hv2, hvm⟩, hkpos⟩ := matching_blocks_core a b _ hmem
    simp only at hv1 hv2 hvm hkpos
    apply List.ext_getElem (by omega)
    intro n h1 h2
    have hn := hvm n (by omega)
    rw [show ai + n = n by omega, show bj + n = n by omega,
      List.getD_eq_getElem a "" h1, List.getD_eq_getElem b "" h2] at hn
    exact hn

/-- The unified diff of two line lists is empty exactly when they are
equal. -/
theorem unified_diff_nil_iff (a b : List String) (f t : String) :
    unified_diff a b f t = [] ↔ a = b := by
  constructor
  · intro h
    have hg : get_grouped_opcodes a b 3 = [] := by
      rcases hgg : get_grouped_opcodes a b 3 with _ | ⟨g, gs⟩
      · rfl
      · rw [show unified_diff a b f t
            = ("--- " ++ f ++ "\n") :: ("+++ " ++ t ++ "\n")
              :: (g :: gs).flatMap (fun g2 => hunkHeader g2 :: g2.flatMap (opLines a b))
          from by unfold unified_diff; rw [hgg]] at h
        simp at h
    exact get_opcodes_trivial a b (grouped_nil_cases a b hg)
  · intro h
    rw [h]
    exact unified_self b f t

/-! ## String helpers -/

/-- Two appends with distinct head characters differ. -/
theorem append_ne_of_head {s1 s2 t1 t2 : String} (c1 c2 : Char)
    (h1 : s1.data.head? = some c1) (h2 : s2.data.head? = some c2) (hne : c1 ≠ c2) :
    s1 ++ t1 ≠ s2 ++ t2 := by
  intro he
  apply hne
  have hd : s1.data ++ t1.data = s2.data ++ t2.data := by
    have := congrArg String.data he
    simpa using this
  have e1 : (s1.data ++ t1.data).head? = some c1 := by
    cases hs : s1.data with
    | nil => simp [hs] at h1
    | cons a l => rw [hs] at h1; simpa using h1
  have e2 : (s2.data ++ t2.data).head? = some c2 := by
    cases hs : s2.data with
    | nil => simp [hs] at h2
    | cons a l => rw [hs] at h2; simpa using h2
  rw [hd, e2] at e1
  exact (Option.some.inj e1).symm

/-! ## Line structure of the emitted text -/

/-- Splitting a non-empty character list yields at least one line. -/
theorem charSplit_ne_nil (c : Char) (cs : List Char) : charSplit (c :: cs) ≠ [] := by
  rw [charSplit]
  by_cases h : c = '\n'
  · rw [if_pos h]; simp
  · rw [if_neg h]
    rcases hsp : charSplit cs with _ | ⟨l, ls⟩ <;> simp

/-- Splitting distributes over appending at a newline boundary. -/
theorem charSplit_append_newline (b : List Char) : ∀ (a : List Char),
    a.getLast? = some '\n' → charSplit (a ++ b) = charSplit a ++ charSplit b := by
  intro a
  induction a with
  | nil => intro h; simp at h
  | cons c rest ih =>
    intro h
    cases rest with
    | nil =>
      have hc : c = '\n' := by simpa using h
      subst hc
      show charSplit ('\n' :: b) = charSplit ['\n'] ++ charSplit b
      rw [charSplit, if_pos rfl]
      rfl
    | cons c2 t =>
      have h2 : (c2 :: t).getLast? = some '\n' := by
        rwa [List.getLast?_cons_cons] at h
      have hrec := ih h2
      by_cases hc : c = '\n'
      · subst hc
        show charSplit ('\n' :: ((c2 :: t) ++ b))
          = charSplit ('\n' :: (c2 :: t)) ++ charSplit b
        rw [charSplit, if_pos rfl, hrec,
          show charSplit ('\n' :: (c2 :: t)) = [] :: charSplit (c2 :: t) from
            by rw [charSplit, if_pos rfl]]
        rfl
      · show charSplit (c :: ((c2 :: t) ++ b)) = charSplit (c :: (c2 :: t)) ++ charSplit b
        rw [charSplit, if_neg hc, hrec]
        rcases hsp : charSplit (c2 :: t) with _ | ⟨l, ls⟩
        · exact absurd hsp (charSplit_ne_nil c2 t)
        · rw [show charSplit (c :: (c2 :: t))
              = (match charSplit (c2 :: t) with
                 | [] => [[c]]
                 | l :: ls => (c :: l) :: ls) from by rw [charSplit, if_neg hc], hsp]
          rfl

/-- No split line contains a newline. -/
theorem charSplit_no_newline (cs : List Char) : ∀ l ∈ charSplit cs, '\n' ∉ l := by
  induction cs with
  | nil => intro l hl; simp [charSplit] at hl
  | cons c cs ih =>
    intro l hl
    by_cases hc : c = '\n'
    · rw [charSplit, if_pos hc] at hl
      rcases List.mem_cons.mp hl with rfl | h
      · simp
      · exact ih l h
    · rw [charSplit, if_neg hc] at hl
      rcases hsp : charSplit cs with _ | ⟨p, ps⟩
      · rw [hsp] at hl
        have he : l = [c] := by simpa using hl
        subst he
        intro hmem
        exact hc (List.mem_singleton.mp hmem).symm
      · rw [hsp] at hl
        rcases List.mem_cons.mp hl with rfl | h
        · intro hmem
          rcases List.mem_cons.mp hmem with he | he
          · exact hc he.symm
          · exact ih p (by rw [hsp]; exact List.mem_cons_self p ps) he
        · exact ih l (by rw [hsp]; exact List.mem_cons_of_mem p h)

/-- A newline-free line followed by its terminator splits into itself. -/
theorem charSplit_singleton_line : ∀ (m : List Char), '\n' ∉ m →
    charSplit (m ++ ['\n']) = [m]
  | [], _ => rfl
  | c :: t, h => by
    have hc : c ≠ '\n' := by
      intro he
      exact h (by rw [he]; exact List.mem_cons_self _ _)
    show charSplit (c :: (t ++ ['\n'])) = [c :: t]
    rw [charSplit, if_neg hc,
      charSplit_singleton_line t (fun ht => h (List.mem_cons_of_mem c ht))]

/-- A newline-terminated line plus a second terminator splits into the stem
and an empty line. -/
theorem charSplit_term_line (m : List Char) (h : '\n' ∉ m) :
    charSplit ((m ++ ['\n']) ++ ['\n']) = [m, []] := by
  rw [charSplit_append_newline _ _ (List.getLast?_concat _), charSplit_singleton_line m h]
  rfl

/-- The emitted text of a list of lines, each newline-free or
newline-terminated with a newline-free stem, splits back into one line per
newline-free line and stem-plus-blank for each newline-terminated one. -/
theorem pySplitlines_emitted : ∀ (lines : List String),
    (∀ l ∈ lines, '\n' ∉ l.data ∨ ∃ m, l.data = m ++ ['\n'] ∧ '\n' ∉ m) →
    pySplitlines (emittedText lines) =
      lines.flatMap fun l =>
        if '\n' ∈ l.data then [String.mk l.data.dropLast, ""] else [l] := by
  intro lines
  induction lines with
  | nil => intro _; rfl
  | cons l rest ih =>
    intro h
    have hl := h l (List.mem_cons_self l rest)
    have hrest := ih fun l2 hl2 => h l2 (List.mem_cons_of_mem l hl2)
    show pySplitlines (l ++ "\n" ++ emittedText rest) = _
    unfold pySplitlines
    rw [String.data_append, String.data_append,
      show ("\n" : String).data = ['\n'] from rfl]
    simp only [List.flatMap_cons]
    rcases hl with hnl | ⟨m, hm, hmn⟩
    · rw [charSplit_append_newline _ _ (List.getLast?_concat _),
        charSplit_singleton_line l.data hnl, if_neg hnl, List.map_append]
      show [l] ++ pySplitlines (emittedText rest) = _
      rw [hrest]
    · rw [hm, charSplit_append_newline _ _ (List.getLast?_concat _),
        charSplit_term_line m hmn,
        if_pos (List.mem_append_right m (List.mem_singleton.mpr rfl)),
        List.map_append]
      show [String.mk m, ""] ++ pySplitlines (emittedText rest) = _
      rw [hrest, List.dropLast_concat]

/-- No digit below ten renders as a newline. -/
theorem digitChar_lt10_ne_newline (m : Nat) (h : m < 10) : digitChar m ≠ '\n' := by
  interval_cases m <;> decide

/-- The fuelled decimal rendering never contains a newline. -/
theorem natReprF_no_newline : ∀ (fuel n : Nat), '\n' ∉ (natReprF fuel n).data := by
  intro fuel
  induction fuel with
  | zero => intro n; simp [natReprF]
  | succ f ih =>
    intro n
    rw [natReprF]
    by_cases h : n < 10
    · rw [if_pos h]
      intro hmem
      have he : '\n' = digitChar n := by simpa [String.singleton] using hmem
      exact digitChar_lt10_ne_newline n h he.symm
    · rw [if_neg h]
      intro hmem
      rw [String.data_append] at hmem
      rcases List.mem_append.mp hmem with h1 | h1
      · exact ih (n / 10) h1
      · have he : '\n' = digitChar (n % 10) := by simpa [String.singleton] using h1
        exact digitChar_lt10_ne_newline (n % 10) (Nat.mod_lt _ (by norm_num)) he.symm

/-- Decimal renderings contain no newline. -/
theorem natRepr_no_newline (n : Nat) : '\n' ∉ (natRepr n).data :=
  natReprF_no_newline (n + 1) n

/-- Hunk ranges contain no newline. -/
theorem formatRangeUnified_no_newline (s1 s2 : Nat) :
    '\n' ∉ (formatRangeUnified s1 s2).data := by
  show '\n' ∉ (if s2 - s1 = 1 then natRepr (s1 + 1)
    else natRepr (if s2 - s1 = 0 then s1 + 1 - 1 else s1 + 1)
      ++ "," ++ natRepr (s2 - s1)).data
  by_cases h : s2 - s1 = 1
  · rw [if_pos h]
    exact natRepr_no_newline _
  · rw [if_neg h, String.data_append, String.data_append]
    intro hm
    rcases List.mem_append.mp hm with h1 | h1
    · rcases List.mem_append.mp h1 with h2 | h2
      · exact natRepr_no_newline _ h2
      · exact absurd h2 (by decide)
    · exact natRepr_no_newline _ h1

/-- A newline-free prefix followed by a newline-terminated tail is a
newline-terminated line with a newline-free stem. -/
theorem term_line_shape (u : String) (pre : List Char) (hu : '\n' ∉ u.data)
    (hpre : '\n' ∉ pre) (t : String) (ht : t.data = pre ++ ['\n']) :
    ∃ m, (u ++ t).data = m ++ ['\n'] ∧ '\n' ∉ m := by
  refine ⟨u.data ++ pre, ?_, ?_⟩
  · rw [String.data_append, ht, ← List.append_assoc]
  · intro h
    rcases List.mem_append.mp h with h | h
    · exact hu h
    · exact hpre h

/-- The hunk header is rendered flat, as in `hunkHeader`. -/
theorem hunkHeader_eq (g : List Op) :
    hunkHeader g = "@@ -" ++ formatRangeUnified (g.headD (Tag.equal, 0, 0, 0, 0)).2.1
        (g.getLastD (Tag.equal, 0, 0, 0, 0)).2.2.1
      ++ " +" ++ formatRangeUnified (g.headD (Tag.equal, 0, 0, 0, 0)).2.2.2.1
        (g.getLastD (Tag.equal, 0, 0, 0, 0)).2.2.2.2 ++ " @@\n" := rfl

/-- Every hunk header is one newline-terminated line with a newline-free
stem. -/
theorem hunkHeader_shape (g : List Op) :
    ∃ m, (hunkHeader g).data = m ++ ['\n'] ∧ '\n' ∉ m := by
  rw [hunkHeader_eq]
  refine term_line_shape _ [' ', '@', '@'] ?_ (by decide) _ rfl
  rw [String.data_append, String.data_append, String.data_append]
  intro h
  rcases List.mem_append.mp h with h | h
  · rcases List.mem_append.mp h with h | h
    · rcases List.mem_append.mp h with h | h
      · exact absurd h (by decide)
      · exact formatRangeUnified_no_newline _ _ h
    · exact absurd h (by decide)
  · exact formatRangeUnified_no_newline _ _ h

/-- A marker prepended to newline-free source lines stays newline-free. -/
theorem mem_marked (pre : String) (hpre : '\n' ∉ pre.data) (src : List String)
    (hsrc : ∀ s ∈ src, '\n' ∉ s.data) (i1 i2 : Nat) :
    ∀ l ∈ (sliceList src i1 i2).map (fun s => pre ++ s), '\n' ∉ l.data := by
  intro l hl
  rcases List.mem_map.mp hl with ⟨s, hs, rfl⟩
  have hsm : s ∈ src := List.mem_of_mem_take (List.mem_of_mem_drop hs)
  rw [String.data_append]
  intro hmem
  rcases List.mem_append.mp hmem with h | h
  · exact hpre h
  · exact hsrc s hsm h

/-- Opcode body lines are newline-free when the source lines are. -/
theorem opLines_shape (a b : List String)
    (ha : ∀ s ∈ a, '\n' ∉ s.data) (hb : ∀ s ∈ b, '\n' ∉ s.data) (op : Op) :
    ∀ l ∈ opLines a b op, '\n' ∉ l.data := by
  rcases op with ⟨tag, i1, i2, j1, j2⟩
  cases tag with
  | equal => exact mem_marked " " (by decide) a ha i1 i2
  | delete => exact mem_marked "-" (by decide) a ha i1 i2
  | insert => exact mem_marked "+" (by decide) b hb j1 j2
  | replace =>
    intro l hl
    rcases List.mem_append.mp hl with h | h
    · exact mem_marked "-" (by decide) a ha i1 i2 l h
    · exact mem_marked "+" (by decide) b hb j1 j2 l h

/-- Every line of `pySplitlines` output is newline-free. -/
theorem pySplitlines_no_newline (x : String) : ∀ s ∈ pySplitlines x, '\n' ∉ s.data := by
  intro s hs
  rcases List.mem_map.mp hs with ⟨piece, hp, rfl⟩
  exact charSplit_no_newline x.data piece hp

/-- Every line of `unified_diff` over newline-free inputs and labels is
either newline-free (a body line) or a newline-terminated line with a
newline-free stem (the two file headers and the hunk headers). -/
theorem unified_diff_line_shape (a b : List String) (f t : String)
    (hf : '\n' ∉ f.data) (ht : '\n' ∉ t.data)
    (ha : ∀ s ∈ a, '\n' ∉ s.data) (hb : ∀ s ∈ b, '\n' ∉ s.data) :
    ∀ l ∈ unified_diff a b f t,
      '\n' ∉ l.data ∨ ∃ m, l.data = m ++ ['\n'] ∧ '\n' ∉ m := by
  intro l hl
  rcases hg : get_grouped_opcodes a b 3 with _ | ⟨g, gs⟩
  · rw [show unified_diff a b f t = [] from by unfold unified_diff; rw [hg]] at hl
    simp at hl
  · rw [show unified_diff a b f t
        = ("--- " ++ f ++ "\n") :: ("+++ " ++ t ++ "\n")
          :: (g :: gs).flatMap (fun g2 => hunkHeader g2 :: g2.flatMap (opLines a b))
      from by unfold unified_diff; rw [hg]] at hl
    rcases List.mem_cons.mp hl with rfl | hl
    · exact Or.inr (term_line_shape ("--- " ++ f) [] (by
        rw [String.data_append]
        intro h
        rcases List.mem_append.mp h with h | h
        · exact absurd h (by decide)
        · exact hf h) (by simp) "\n" rfl)
    rcases List.mem_cons.mp hl with rfl | hl
    · exact Or.inr (term_line_shape ("+++ " ++ t) [] (by
        rw [String.data_append]
        intro h
        rcases List.mem_append.mp h with h | h
        · exact absurd h (by decide)
        · exact ht h) (by simp) "\n" rfl)
    rcases List.mem_flatMap.mp hl with ⟨g2, _, hg2⟩
    rcases List.mem_cons.mp hg2 with rfl | hing
    · exact Or.inr (hunkHeader_shape g2)
    rcases List.mem_flatMap.mp hing with ⟨op, _, hop⟩
    exact Or.inl (opLines_shape a b ha hb op l hop)

/-- Every `diff_configs` line is newline-free or newline-terminated with a
newline-free stem. -/
theorem diff_line_shape (A B : Document) : ∀ l ∈ diff_configs A B,
    '\n' ∉ l.data ∨ ∃ m, l.data = m ++ ['\n'] ∧ '\n' ∉ m :=
  unified_diff_line_shape _ _ _ _ (by decide) (by decide)
    (pySplitlines_no_newline _) (pySplitlines_no_newline _)

/-! ## Spec-side model for C2: the loader's scalar parser

The definitions in this section are spec-side: they formalize the
specification's demand that the serializer use "a stable
numeric/string/boolean/null literal form (the same form Loader's parser
would round-trip)" — a model of the JSON scalar grammar (the fragment
covering the encoder's output), against which the code-side `dumpsAt` is
checked. -/

/-- The members of a sequence, in order. -/
def DocList.toList : DocList → List Document
  | .nil => []
  | .cons x xs => x :: DocList.toList xs

/-- Spec-side: decimal digits only. -/
def allDigits (l : List Char) : Bool := l.all fun c => 48 ≤ c.toNat && c.toNat ≤ 57

/-- Spec-side: the value of a decimal digit string. -/
def valDigits (l : List Char) : Nat := l.foldl (fun acc c => acc * 10 + (c.toNat - 48)) 0

/-- Spec-side: value of one lower-case hex digit. -/
def hexVal (c : Char) : Nat := if c.toNat ≤ 57 then c.toNat - 48 else c.toNat - 87

/-- Spec-side: the short JSON escapes. -/
def escDecode : Char → Option Char
  | '\\' => some '\\'
  | '"' => some '"'
  | 'b' => some (Char.ofNat 8)
  | 'f' => some (Char.ofNat 12)
  | 'n' => some '\n'
  | 'r' => some '\r'
  | 't' => some '\t'
  | _ => none

/-- Spec-side: one JSON string escape after the backslash, reading further
characters with `recur` (the fragment of the grammar covering the
encoder's output): short escapes and `\uXXXX` with surrogate-pair
recombination. -/
def parseEscWith (recur : List Char → Option (List Char)) : List Char → Option (List Char)
  | [] => none
  | e :: rest2 =>
    if e = 'u' then
      match rest2 with
      | h1 :: h2 :: h3 :: h4 :: rest3 =>
        if 0xd800 ≤ ((hexVal h1 * 16 + hexVal h2) * 16 + hexVal h3) * 16 + hexVal h4
            ∧ ((hexVal h1 * 16 + hexVal h2) * 16 + hexVal h3) * 16 + hexVal h4
              < 0xdc00 then
          match rest3 with
          | e1 :: e2 :: g1 :: g2 :: g3 :: g4 :: rest4 =>
            if e1 = '\\' ∧ e2 = 'u'
                ∧ 0xdc00 ≤ ((hexVal g1 * 16 + hexVal g2) * 16 + hexVal g3) * 16 + hexVal g4
                ∧ ((hexVal g1 * 16 + hexVal g2) * 16 + hexVal g3) * 16 + hexVal g4
                  < 0xe000 then
              (recur rest4).map fun cs =>
                Char.ofNat (0x10000
                  + (((hexVal h1 * 16 + hexVal h2) * 16 + hexVal h3) * 16 + hexVal h4
                      - 0xd800) * 0x400
                  + (((hexVal g1 * 16 + hexVal g2) * 16 + hexVal g3) * 16 + hexVal g4
                      - 0xdc00)) :: cs
            else none
          | _ => none
        else
          (recur rest3).map fun cs =>
            Char.ofNat (((hexVal h1 * 16 + hexVal h2) * 16 + hexVal h3) * 16 + hexVal h4)
              :: cs
      | _ => none
    else
      match escDecode e with
      | some d => (recur rest2).map fun cs => d :: cs
      | Option.none => none

/-- Spec-side model of reading a JSON string body up to the closing quote
(which must end the input).  The fuel only bounds the recursion depth: one
unit per consumed character or escape. -/
def parseStrChars : Nat → List Char → Option (List Char)
  | 0, _ => none
  | _ + 1, [] => none
  | fuel + 1, c :: rest =>
    if c = '"' then (if rest = [] then some [] else none)
    else if c = '\\' then parseEscWith (parseStrChars fuel) rest
    else (parseStrChars fuel rest).map fun cs => c :: cs

/-- Spec-side model of the loader's parser on one scalar literal: `null`,
`true`, `false`, an optionally negated digit string, or a quoted string. -/
def jsonParseScalar (s : String) : Option Document :=
  if s = "null" then some .null
  else if s = "true" then some (.bool true)
  else if s = "false" then some (.bool false)
  else if s.data = [] then none
  else if s.data.headD ' ' = '"' then
    (parseStrChars (s.data.tail.length + 1) s.data.tail).map fun cs => .str (String.mk cs)
  else if s.data.headD ' ' = '-' then
    if s.data.tail ≠ [] ∧ allDigits s.data.tail = true then
      some (.num (-(valDigits s.data.tail : Int)))
    else none
  else if allDigits s.data = true then some (.num (valDigits s.data))
  else none

/-- Decimal digit characters decode back. -/
theorem digitChar_toNat (m : Nat) (h : m < 10) : (digitChar m).toNat = 48 + m := by
  interval_cases m <;> decide

/-- Decimal renderings consist of digits. -/
theorem natReprF_allDigits : ∀ (fuel n : Nat), allDigits (natReprF fuel n).data = true := by
  intro fuel
  induction fuel with
  | zero => intro n; rfl
  | succ f ih =>
    intro n
    rw [natReprF]
    by_cases h : n < 10
    · rw [if_pos h]
      simp [allDigits, digitChar_toNat n h]
      omega
    · rw [if_neg h]
      have h1 := ih (n / 10)
      have hm : n % 10 < 10 := Nat.mod_lt _ (by norm_num)
      simp only [allDigits] at h1 ⊢
      rw [String.data_append,
        show (String.singleton (digitChar (n % 10))).data = [digitChar (n % 10)] from rfl,
        List.all_append, h1]
      simp [digitChar_toNat _ hm]
      omega

/-- Decimal renderings decode back to their value. -/
theorem natReprF_val : ∀ (fuel : Nat), ∀ n < fuel, valDigits (natReprF fuel n).data = n := by
  intro fuel
  induction fuel with
  | zero => intro n hn; omega
  | succ f ih =>
    intro n hn
    rw [natReprF]
    by_cases h : n < 10
    · rw [if_pos h]
      show 0 * 10 + ((digitChar n).toNat - 48) = n
      rw [digitChar_toNat n h]
      omega
    · rw [if_neg h]
      unfold valDigits
      rw [String.data_append,
        show (String.singleton (digitChar (n % 10))).data = [digitChar (n % 10)] from rfl,
        List.foldl_append]
      have h1 := ih (n / 10) (by omega)
      unfold valDigits at h1
      rw [h1]
      show n / 10 * 10 + ((digitChar (n % 10)).toNat - 48) = n
      rw [digitChar_toNat _ (Nat.mod_lt _ (by norm_num))]
      omega

/-- Decimal renderings are non-empty. -/
theorem natRepr_ne_nil (n : Nat) : (natRepr n).data ≠ [] := by
  unfold natRepr
  rw [natReprF]
  by_cases h : n < 10
  · rw [if_pos h]
    rw [show (String.singleton (digitChar n)).data = [digitChar n] from rfl]
    simp
  · rw [if_neg h]
    rw [String.data_append,
      show (String.singleton (digitChar (n % 10))).data = [digitChar (n % 10)] from rfl]
    simp

/-- An all-digit literal is none of the three keywords. -/
theorem allDigits_ne_special (s : String) (h : allDigits s.data = true) :
    s ≠ "null" ∧ s ≠ "true" ∧ s ≠ "false" := by
  refine ⟨?_, ?_, ?_⟩ <;>
    (intro he; rw [he] at h; exact absurd h (by decide))

/-- The parser reads a non-empty all-digit literal as its value. -/
theorem jsonParse_digits (s : String) (hne : s.data ≠ []) (h : allDigits s.data = true) :
    jsonParseScalar s = some (.num (valDigits s.data)) := by
  obtain ⟨hn1, hn2, hn3⟩ := allDigits_ne_special s h
  have hhead : 48 ≤ (s.data.headD ' ').toNat ∧ (s.data.headD ' ').toNat ≤ 57 := by
    rcases hd : s.data with _ | ⟨c, rest⟩
    · exact absurd hd hne
    · rw [hd] at h
      have hc := List.all_eq_true.mp h c (List.mem_cons_self _ _)
      simpa using hc
  unfold jsonParseScalar
  rw [if_neg hn1, if_neg hn2, if_neg hn3, if_neg hne,
    if_neg (show ¬ s.data.headD ' ' = '"' by
      intro he
      rw [he] at hhead
      revert hhead
      decide),
    if_neg (show ¬ s.data.headD ' ' = '-' by
      intro he
      rw [he] at hhead
      revert hhead
      decide),
    if_pos h]

/-- The parser reads the rendering of an integer back to the integer. -/
theorem jsonParse_intRepr (i : Int) : jsonParseScalar (intRepr i) = some (.num i) := by
  unfold intRepr
  by_cases h : i < 0
  · rw [if_pos h]
    have hd : ("-" ++ natRepr i.natAbs).data = '-' :: (natRepr i.natAbs).data := by
      rw [String.data_append]
      rfl
    unfold jsonParseScalar
    rw [if_neg ?hnull, if_neg ?htrue, if_neg ?hfalse]
    case hnull =>
      intro he
      have h2 := congrArg String.data he
      rw [hd] at h2
      simp at h2
    case htrue =>
      intro he
      have h2 := congrArg String.data he
      rw [hd] at h2
      simp at h2
    case hfalse =>
      intro he
      have h2 := congrArg String.data he
      rw [hd] at h2
      simp at h2
    rw [hd, List.headD_cons, List.tail_cons,
      if_neg (show ¬ ('-' :: (natRepr i.natAbs).data) = [] by simp),
      if_neg (by decide : ¬ ('-' : Char) = '"'), if_pos rfl,
      if_pos ⟨natRepr_ne_nil _, natReprF_allDigits _ _⟩]
    have hval : (-(valDigits (natRepr i.natAbs).data : Int)) = i := by
      rw [show valDigits (natRepr i.natAbs).data = i.natAbs from
        natReprF_val _ _ (Nat.lt_succ_self _)]
      omega
    rw [hval]
  · rw [if_neg h]
    rw [jsonParse_digits _ (natRepr_ne_nil _) (natReprF_allDigits _ _)]
    have hval : ((valDigits (natRepr i.toNat).data : Nat) : Int) = i := by
      rw [show valDigits (natRepr i.toNat).data = i.toNat from
        natReprF_val _ _ (Nat.lt_succ_self _)]
      omega
    rw [hval]

/-- The escaped body of a string literal, character by character. -/
def escBody : List Char → List Char
  | [] => []
  | c :: l => (escChar c).data ++ escBody l

/-- Folding string append collects the character data. -/
theorem foldl_append_data : ∀ (l : List String) (acc : String),
    (l.foldl (· ++ ·) acc).data = acc.data ++ l.flatMap String.data := by
  intro l
  induction l with
  | nil => intro acc; simp
  | cons x xs ih =>
    intro acc
    show (xs.foldl (· ++ ·) (acc ++ x)).data = _
    rw [ih (acc ++ x), String.data_append]
    simp [List.flatMap_cons, List.append_assoc]

/-- `String.join` collects the character data. -/
theorem join_data (l : List String) : (String.join l).data = l.flatMap String.data := by
  show (l.foldl (· ++ ·) "").data = _
  rw [foldl_append_data]
  rfl

/-- The joined escapes are the escaped body. -/
theorem escBody_join (l : List Char) :
    (l.map escChar).flatMap String.data = escBody l := by
  induction l with
  | nil => rfl
  | cons c t ih =>
    rw [show (c :: t).map escChar = escChar c :: t.map escChar from rfl,
      List.flatMap_cons, ih]
    rfl

/-- Lower-case hex digits decode back. -/
theorem hexVal_hexDigitChar (m : Nat) (h : m < 16) : hexVal (hexDigitChar m) = m := by
  interval_cases m <;> decide

/-- Reduction of the escape reader at a `\\uXXXX` escape. -/
theorem parseEscWith_u (recur : List Char → Option (List Char))
    (h1 h2 h3 h4 : Char) (rest3 : List Char) :
    parseEscWith recur ('u' :: h1 :: h2 :: h3 :: h4 :: rest3)
      = (if 0xd800 ≤ ((hexVal h1 * 16 + hexVal h2) * 16 + hexVal h3) * 16 + hexVal h4
            ∧ ((hexVal h1 * 16 + hexVal h2) * 16 + hexVal h3) * 16 + hexVal h4
              < 0xdc00 then
          (match rest3 with
           | e1 :: e2 :: g1 :: g2 :: g3 :: g4 :: rest4 =>
             if e1 = '\\' ∧ e2 = 'u'
                 ∧ 0xdc00 ≤ ((hexVal g1 * 16 + hexVal g2) * 16 + hexVal g3) * 16 + hexVal g4
                 ∧ ((hexVal g1 * 16 + hexVal g2) * 16 + hexVal g3) * 16 + hexVal g4
                   < 0xe000 then
               (recur rest4).map fun cs =>
                 Char.ofNat (0x10000
                   + (((hexVal h1 * 16 + hexVal h2) * 16 + hexVal h3) * 16 + hexVal h4
                       - 0xd800) * 0x400
                   + (((hexVal g1 * 16 + hexVal g2) * 16 + hexVal g3) * 16 + hexVal g4
                       - 0xdc00)) :: cs
             else none
           | _ => none)
        else
          (recur rest3).map fun cs =>
            Char.ofNat (((hexVal h1 * 16 + hexVal h2) * 16 + hexVal h3) * 16 + hexVal h4)
              :: cs) := rfl

/-- The reader inverts the encoder's escaping, character by character, up
to the closing quote. -/
theorem parseStrChars_escBody : ∀ (l : List Char) (fuel : Nat),
    (escBody l).length < fuel →
    parseStrChars fuel (escBody l ++ ['"']) = some l := by
  intro l
  induction l with
  | nil =>
    intro fuel hf
    rcases fuel with _ | f
    · omega
    · rfl
  | cons c l ih =>
    intro fuel hf
    rcases fuel with _ | f
    · omega
    have hf2 : (escBody l).length < f := by
      have h2 : (escBody (c :: l)).length = (escChar c).data.length + (escBody l).length := by
        show ((escChar c).data ++ escBody l).length = _
        rw [List.length_append]
      have h3 : 1 ≤ (escChar c).data.length := by
        unfold escChar
        by_cases e1 : c = '\\'
        · rw [if_pos e1]; decide
        rw [if_neg e1]
        by_cases e2 : c = '"'
        · rw [if_pos e2]; decide
        rw [if_neg e2]
        by_cases e3 : c = '\x08'
        · rw [if_pos e3]; decide
        rw [if_neg e3]
        by_cases e4 : c = '\x0c'
        · rw [if_pos e4]; decide
        rw [if_neg e4]
        by_cases e5 : c = '\n'
        · rw [if_pos e5]; decide
        rw [if_neg e5]
        by_cases e6 : c = '\r'
        · rw [if_pos e6]; decide
        rw [if_neg e6]
        by_cases e7 : c = '\t'
        · rw [if_pos e7]; decide
        rw [if_neg e7]
        by_cases e8 : 0x20 ≤ c.toNat ∧ c.toNat ≤ 0x7e
        · rw [if_pos e8]; exact Nat.le_refl 1
        rw [if_neg e8]
        by_cases e9 : c.toNat < 0x10000
        · rw [if_pos e9]
          rw [String.data_append]
          simp
        · rw [if_neg e9]
          rw [String.data_append]
          simp
      omega
    have hrec := ih f hf2
    show parseStrChars (f + 1) (((escChar c).data ++ escBody l) ++ ['"']) = some (c :: l)
    rw [List.append_assoc]
    by_cases e1 : c = '\\'
    · subst e1
      show ((parseStrChars f (escBody l ++ ['"'])).map fun cs => '\\' :: cs)
        = some ('\\' :: l)
      rw [hrec]
      rfl
    by_cases e2 : c = '"'
    · subst e2
      show ((parseStrChars f (escBody l ++ ['"'])).map fun cs => '"' :: cs)
        = some ('"' :: l)
      rw [hrec]
      rfl
    by_cases e3 : c = '\x08'
    · subst e3
      show ((parseStrChars f (escBody l ++ ['"'])).map fun cs => '\x08' :: cs)
        = some ('\x08' :: l)
      rw [hrec]
      rfl
    by_cases e4 : c = '\x0c'
    · subst e4
      show ((parseStrChars f (escBody l ++ ['"'])).map fun cs => '\x0c' :: cs)
        = some ('\x0c' :: l)
      rw [hrec]
      rfl
    by_cases e5 : c = '\n'
    · subst e5
      show ((parseStrChars f (escBody l ++ ['"'])).map fun cs => '\n' :: cs)
        = some ('\n' :: l)
      rw [hrec]
      rfl
    by_cases e6 : c = '\r'
    · subst e6
      show ((parseStrChars f (escBody l ++ ['"'])).map fun cs => '\r' :: cs)
        = some ('\r' :: l)
      rw [hrec]
      rfl
    by_cases e7 : c = '\t'
    · subst e7
      show ((parseStrChars f (escBody l ++ ['"'])).map fun cs => '\t' :: cs)
        = some ('\t' :: l)
      rw [hrec]
      rfl
    by_cases e8 : 0x20 ≤ c.toNat ∧ c.toNat ≤ 0x7e
    · have hesc : escChar c = String.singleton c := by
        unfold escChar
        rw [if_neg e1, if_neg e2, if_neg e3, if_neg e4, if_neg e5, if_neg e6, if_neg e7,
          if_pos e8]
      rw [hesc]
      show parseStrChars (f + 1) (c :: (escBody l ++ ['"'])) = some (c :: l)
      rw [parseStrChars, if_neg e2, if_neg e1, hrec]
      rfl
    by_cases e9 : c.toNat < 0x10000
    · have hesc : escChar c = "\\u" ++ hex4 c.toNat := by
        unfold escChar
        rw [if_neg e1, if_neg e2, if_neg e3, if_neg e4, if_neg e5, if_neg e6, if_neg e7,
          if_neg e8, if_pos e9]
      rw [hesc]
      show parseStrChars (f + 1) ('\\' :: 'u' :: hexDigitChar (c.toNat / 4096 % 16)
          :: hexDigitChar (c.toNat / 256 % 16) :: hexDigitChar (c.toNat / 16 % 16)
          :: hexDigitChar (c.toNat % 16) :: (escBody l ++ ['"'])) = some (c :: l)
      rw [parseStrChars, if_neg (by decide : ¬ ('\\' : Char) = '"'), if_pos rfl,
        parseEscWith_u,
        hexVal_hexDigitChar _ (by omega), hexVal_hexDigitChar _ (by omega),
        hexVal_hexDigitChar _ (by omega), hexVal_hexDigitChar _ (by omega),
        show ((c.toNat / 4096 % 16 * 16 + c.toNat / 256 % 16) * 16 + c.toNat / 16 % 16)
            * 16 + c.toNat % 16 = c.toNat by omega,
        if_neg (show ¬ (0xd800 ≤ c.toNat ∧ c.toNat < 0xdc00) by
          have hv : c.toNat < 55296 ∨ (57344 ≤ c.toNat ∧ c.toNat < 1114112) := c.valid
          omega),
        hrec]
      show some (Char.ofNat c.toNat :: l) = some (c :: l)
      rw [Char.ofNat_toNat]
    · have hesc : escChar c = "\\u" ++ hex4 (0xd800 + (c.toNat - 0x10000) / 0x400)
          ++ "\\u" ++ hex4 (0xdc00 + (c.toNat - 0x10000) % 0x400) := by
        unfold escChar
        rw [if_neg e1, if_neg e2, if_neg e3, if_neg e4, if_neg e5, if_neg e6, if_neg e7,
          if_neg e8, if_neg e9]
      have hcv : c.toNat < 0x110000 := by
        have hv : c.toNat < 55296 ∨ (57344 ≤ c.toNat ∧ c.toNat < 1114112) := c.valid
        omega
      rw [hesc]
      show parseStrChars (f + 1) ('\\' :: 'u'
          :: hexDigitChar ((0xd800 + (c.toNat - 0x10000) / 0x400) / 4096 % 16)
          :: hexDigitChar ((0xd800 + (c.toNat - 0x10000) / 0x400) / 256 % 16)
          :: hexDigitChar ((0xd800 + (c.toNat - 0x10000) / 0x400) / 16 % 16)
          :: hexDigitChar ((0xd800 + (c.toNat - 0x10000) / 0x400) % 16)
          :: '\\' :: 'u'
          :: hexDigitChar ((0xdc00 + (c.toNat - 0x10000) % 0x400) / 4096 % 16)
          :: hexDigitChar ((0xdc00 + (c.toNat - 0x10000) % 0x400) / 256 % 16)
          :: hexDigitChar ((0xdc00 + (c.toNat - 0x10000) % 0x400) / 16 % 16)
          :: hexDigitChar ((0xdc00 + (c.toNat - 0x10000) % 0x400) % 16)
          :: (escBody l ++ ['"'])) = some (c :: l)
      rw [parseStrChars, if_neg (by decide : ¬ ('\\' : Char) = '"'), if_pos rfl,
        parseEscWith_u,
        hexVal_hexDigitChar _ (by omega), hexVal_hexDigitChar _ (by omega),
        hexVal_hexDigitChar _ (by omega), hexVal_hexDigitChar _ (by omega),
        show (((0xd800 + (c.toNat - 0x10000) / 0x400) / 4096 % 16 * 16
              + (0xd800 + (c.toNat - 0x10000) / 0x400) / 256 % 16) * 16
              + (0xd800 + (c.toNat - 0x10000) / 0x400) / 16 % 16) * 16
              + (0xd800 + (c.toNat - 0x10000) / 0x400) % 16
            = 0xd800 + (c.toNat - 0x10000) / 0x400 by omega,
        if_pos (show 0xd800 ≤ 0xd800 + (c.toNat - 0x10000) / 0x400
            ∧ 0xd800 + (c.toNat - 0x10000) / 0x400 < 0xdc00 by omega)]
      show (if ('\\' : Char) = '\\' ∧ ('u' : Char) = 'u'
          ∧ 0xdc00 ≤ ((hexVal (hexDigitChar ((0xdc00 + (c.toNat - 0x10000) % 0x400)
                / 4096 % 16)) * 16
              + hexVal (hexDigitChar ((0xdc00 + (c.toNat - 0x10000) % 0x400)
                / 256 % 16))) * 16
              + hexVal (hexDigitChar ((0xdc00 + (c.toNat - 0x10000) % 0x400)
                / 16 % 16))) * 16
              + hexVal (hexDigitChar ((0xdc00 + (c.toNat - 0x10000) % 0x400) % 16))
          ∧ ((hexVal (hexDigitChar ((0xdc00 + (c.toNat - 0x10000) % 0x400)
                / 4096 % 16)) * 16
              + hexVal (hexDigitChar ((0xdc00 + (c.toNat - 0x10000) % 0x400)
                / 256 % 16))) * 16
              + hexVal (hexDigitChar ((0xdc00 + (c.toNat - 0x10000) % 0x400)
                / 16 % 16))) * 16
              + hexVal (hexDigitChar ((0xdc00 + (c.toNat - 0x10000) % 0x400) % 16))
            < 0xe000 then
          (parseStrChars f (escBody l ++ ['"'])).map fun cs =>
            Char.ofNat (0x10000
              + (0xd800 + (c.toNat - 0x10000) / 0x400 - 0xd800) * 0x400
              + (((hexVal (hexDigitChar ((0xdc00 + (c.toNat - 0x10000) % 0x400)
                    / 4096 % 16)) * 16
                  + hexVal (hexDigitChar ((0xdc00 + (c.toNat - 0x10000) % 0x400)
                    / 256 % 16))) * 16
                  + hexVal (hexDigitChar ((0xdc00 + (c.toNat - 0x10000) % 0x400)
                    / 16 % 16))) * 16
                  + hexVal (hexDigitChar ((0xdc00 + (c.toNat - 0x10000) % 0x400) % 16))
                - 0xdc00)) :: cs
        else none) = some (c :: l)
      rw [hexVal_hexDigitChar _ (by omega), hexVal_hexDigitChar _ (by omega),
        hexVal_hexDigitChar _ (by omega), hexVal_hexDigitChar _ (by omega),
        show (((0xdc00 + (c.toNat - 0x10000) % 0x400) / 4096 % 16 * 16
              + (0xdc00 + (c.toNat - 0x10000) % 0x400) / 256 % 16) * 16
              + (0xdc00 + (c.toNat - 0x10000) % 0x400) / 16 % 16) * 16
              + (0xdc00 + (c.toNat - 0x10000) % 0x400) % 16
            = 0xdc00 + (c.toNat - 0x10000) % 0x400 by omega,
        if_pos ⟨rfl, rfl, by omega, by omega⟩,
        hrec]
      show some (Char.ofNat (0x10000
          + (0xd800 + (c.toNat - 0x10000) / 0x400 - 0xd800) * 0x400
          + (0xdc00 + (c.toNat - 0x10000) % 0x400 - 0xdc00)) :: l) = some (c :: l)
      rw [show 0x10000 + (0xd800 + (c.toNat - 0x10000) / 0x400 - 0xd800) * 0x400
          + (0xdc00 + (c.toNat - 0x10000) % 0x400 - 0xdc00) = c.toNat by omega,
        Char.ofNat_toNat]

/-- The parser reads an encoded string literal back to the string. -/
theorem jsonParse_encStr (s : String) : jsonParseScalar (encStr s) = some (.str s) := by
  have hd : (encStr s).data = '"' :: (escBody s.data ++ ['"']) := by
    unfold encStr
    rw [String.data_append, String.data_append, join_data, escBody_join]
    rfl
  unfold jsonParseScalar
  rw [if_neg ?hnull, if_neg ?htrue, if_neg ?hfalse]
  case hnull =>
    intro he
    have h2 := congrArg String.data he
    rw [hd] at h2
    simp at h2
  case htrue =>
    intro he
    have h2 := congrArg String.data he
    rw [hd] at h2
    simp at h2
  case hfalse =>
    intro he
    have h2 := congrArg String.data he
    rw [hd] at h2
    simp at h2
  rw [hd, List.headD_cons, List.tail_cons,
    if_neg (show ¬ ('"' :: (escBody s.data ++ ['"'])) = [] by simp),
    if_pos rfl,
    parseStrChars_escBody s.data _ (by
      rw [List.length_append]
      omega)]
  rfl

/-- The emitted key sequence of a sorted item list is sorted. -/
theorem sortPairs_keys_sorted (l : List (String × String)) :
    ((sortPairs l).map Prod.fst).Sorted (· ≤ ·) := by
  have h := List.sorted_insertionSort keyLE l
  rw [List.Sorted, List.pairwise_map]
  exact h

/-- The emitted key sequence is a permutation of the mapping's keys. -/
theorem sortPairs_keys_perm (lvl : Nat) (kvs : KvList) :
    ((sortPairs (objItems lvl kvs)).map Prod.fst).Perm (KvList.keys kvs) := by
  have h1 : (sortPairs (objItems lvl kvs)).Perm (objItems lvl kvs) :=
    List.perm_insertionSort keyLE _
  have h2 := h1.map Prod.fst
  rw [objItems_keys] at h2
  exact h2

/-- Sequence items are rendered elementwise, in the original order. -/
theorem arrItems_toList (lvl : Nat) : ∀ xs : DocList,
    arrItems lvl xs = (DocList.toList xs).map fun x => ind lvl ++ dumpsAt lvl x
  | .nil => rfl
  | .cons x t => by
    show (ind lvl ++ dumpsAt lvl x) :: arrItems lvl t = (ind lvl ++ dumpsAt lvl x) :: _
    rw [arrItems_toList lvl t]

/-! ## Claims C7, C8, C9, C10 -/

/-- C7: for every file path and every file content (i.e. whatever the
underlying parsers would say about it), loading with format `ini` takes the
Unsupported path: the dedicated "INI format is not yet supported." message
is logged and `None` is returned; the call never produces a loaded
document and never takes a json/yaml parse-error path. -/
theorem load_ini_unsupported (parsed : ConfigType → Except String PyValue) (p : String) :
    load_config true parsed p .ini
      = .noneLogged "Error loading config file: INI format is not yet supported." := rfl

/-- C8: a Sink write failure is reported but not fatal.  With two loaded
non-null documents whose diff is non-empty and `--output` given, a failing
write leaves the run completing with exit code 0 (only the error log and
the file content differ from the successful-write run). -/
theorem write_failure_nonfatal (A B : Document) (hA : A ≠ .null) (hB : B ≠ .null)
    (hdiff : diff_configs A B ≠ []) (out : String) :
    mainAfterLoad (toPy A) (toPy B) Option.none .valid .valid (some out) true
        = .done ⟨0, "", Option.none, true, true⟩
      ∧ mainAfterLoad (toPy A) (toPy B) Option.none .valid .valid (some out) false
        = .done ⟨0, "", some (emittedText (diff_configs A B)), false, true⟩ := by
  have h1 : isNonePy (toPy A) = false := by
    cases h : isNonePy (toPy A)
    · rfl
    · exact absurd ((isNonePy_toPy A).mp h) hA
  have h2 : isNonePy (toPy B) = false := by
    cases h : isNonePy (toPy B)
    · rfl
    · exact absurd ((isNonePy_toPy B).mp h) hB
  have h3 : (diff_configs A B).isEmpty = false := by
    cases hd : diff_configs A B with
    | nil => exact absurd hd hdiff
    | cons a t => rfl
  constructor <;>
  · unfold mainAfterLoad
    rw [h1, h2, diff_configsPy_toPy]
    simp [h3]

/-- Witness for C8 at a concrete input. -/
theorem write_failure_nonfatal_witness :
    mainAfterLoad (toPy (.num 1)) (toPy (.num 2)) Option.none .valid .valid (some "out.diff") true
        = .done ⟨0, "", Option.none, true, true⟩
      ∧ mainAfterLoad (toPy (.num 1)) (toPy (.num 2)) Option.none .valid .valid (some "out.diff") false
        = .done ⟨0, "", some (emittedText (diff_configs (.num 1) (.num 2))), false, true⟩ :=
  write_failure_nonfatal (.num 1) (.num 2) (by decide) (by decide) (by decide) "out.diff"

/-- C9 counterexample: the claim says the three failure categories are
distinct outcomes of `validate`, but the function's result (its returned
boolean, per its own docstring) is the same `False` for a missing schema
file, a malformed schema file, and a validation failure. -/
theorem validate_outcomes_collapse :
    (validate_config (some "schema.json") .missing).1
        = (validate_config (some "schema.json") (.malformed "Expecting value")).1
      ∧ (validate_config (some "schema.json") .missing).1
        = (validate_config (some "schema.json") (.invalid "is a required property")).1 :=
  ⟨rfl, rfl⟩

/-- C9 (amended): `validate_config` collapses the three failure categories
into the same returned `False`; they are distinguished only by the logged
message, and those three messages are pairwise distinct. -/
theorem validate_failures_distinct_only_in_log (p m1 m2 : String) :
    (validate_config (some p) .missing).1 = false
    ∧ (validate_config (some p) (.malformed m1)).1 = false
    ∧ (validate_config (some p) (.invalid m2)).1 = false
    ∧ (validate_config (some p) .missing).2 ≠ (validate_config (some p) (.malformed m1)).2
    ∧ (validate_config (some p) .missing).2 ≠ (validate_config (some p) (.invalid m2)).2
    ∧ (validate_config (some p) (.malformed m1)).2 ≠ (validate_config (some p) (.invalid m2)).2 := by
  refine ⟨rfl, rfl, rfl, ?_, ?_, ?_⟩
  · show some ("Schema file not found: " ++ p) ≠ some ("Invalid JSON schema file: " ++ m1)
    simp only [ne_eq, Option.some.injEq]
    exact append_ne_of_head 'S' 'I' rfl rfl (by decide)
  · show some ("Schema file not found: " ++ p)
        ≠ some ("Configuration validation failed: " ++ m2)
    simp only [ne_eq, Option.some.injEq]
    exact append_ne_of_head 'S' 'C' rfl rfl (by decide)
  · show some ("Invalid JSON schema file: " ++ m1)
        ≠ some ("Configuration validation failed: " ++ m2)
    simp only [ne_eq, Option.some.injEq]
    exact append_ne_of_head 'I' 'C' rfl rfl (by decide)

/-- Witness for C9's amended theorem at a concrete input. -/
theorem validate_failures_distinct_only_in_log_witness :
    (validate_config (some "schema.json") .missing).1 = false
    ∧ (validate_config (some "schema.json") (.malformed "Expecting value")).1 = false
    ∧ (validate_config (some "schema.json") (.invalid "required")).1 = false
    ∧ (validate_config (some "schema.json") .missing).2
        ≠ (validate_config (some "schema.json") (.malformed "Expecting value")).2
    ∧ (validate_config (some "schema.json") .missing).2
        ≠ (validate_config (some "schema.json") (.invalid "required")).2
    ∧ (validate_config (some "schema.json") (.malformed "Expecting value")).2
        ≠ (validate_config (some "schema.json") (.invalid "required")).2 :=
  validate_failures_distinct_only_in_log "schema.json" "Expecting value" "required"

/-- C10: a `datetime.date` — which PyYAML's safe loader produces for an
ISO-date plain scalar such as `2020-01-01` — makes `json.dumps` raise
`TypeError`, so `diff_configs` raises instead of returning diff lines, and
the unguarded call in `main` lets the exception escape: the process ends
outside the specified error taxonomy. -/
theorem diff_configs_raises_on_date :
    diff_configsPy (.date 2020 1 1) (.date 2020 1 2)
        = .error "Object of type date is not JSON serializable"
      ∧ mainAfterLoad (.date 2020 1 1) (.date 2020 1 2) Option.none .valid .valid Option.none false
        = .raised "Object of type date is not JSON serializable" :=
  ⟨rfl, rfl⟩

/-- C1: for every pair of well-formed documents that differ only in the
insertion order of mapping keys (at every nesting level) — `DocEquiv`, with
the unique-keys well-formedness the spec's data model requires —
`diff_configs` returns the empty list of diff lines. -/
theorem diff_equiv_empty (A B : Document) (h : DocEquiv A B)
    (hwf : Document.wfB A = true) : diff_configs A B = [] := by
  unfold diff_configs dumps
  rw [docDumpsEq A B h hwf 0]
  exact unified_self _ _ _

/-- Witness for C1 at a concrete key-swapped pair. -/
theorem diff_equiv_empty_witness :
    diff_configs
      (.obj (KvList.ofList [("a", .num 1), ("b", .num 2)]))
      (.obj (KvList.ofList [("b", .num 2), ("a", .num 1)])) = [] :=
  diff_equiv_empty _ _
    (DocEquiv.obj (KvList.ofList [("a", .num 1), ("b", .num 2)])
      (KvMid.reflEquivKv _) (by decide))
    (by decide)

/-- C3: canonical serialization is deterministic — a pure function of the
document, so repeated runs yield byte-identical text — and on well-formed
documents it is moreover independent of the original key-insertion order. -/
theorem canonicalize_deterministic (D E : Document) (h : DocEquiv D E)
    (hwf : Document.wfB D = true) :
    dumps D = dumps D ∧ dumps D = dumps E :=
  ⟨rfl, docDumpsEq D E h hwf 0⟩

/-- Witness for C3 at a concrete nested key-swapped pair. -/
theorem canonicalize_deterministic_witness :
    (dumps (.obj (KvList.ofList
          [("x", .obj (KvList.ofList [("p", .bool true), ("q", .null)])),
           ("y", .num 3)]))
      = dumps (.obj (KvList.ofList
          [("x", .obj (KvList.ofList [("p", .bool true), ("q", .null)])),
           ("y", .num 3)])))
    ∧ dumps (.obj (KvList.ofList
          [("x", .obj (KvList.ofList [("p", .bool true), ("q", .null)])),
           ("y", .num 3)]))
      = dumps (.obj (KvList.ofList
          [("y", .num 3),
           ("x", .obj (KvList.ofList [("q", .null), ("p", .bool true)]))])) :=
  canonicalize_deterministic _ _
    (DocEquiv.obj (KvList.ofList
        [("x", .obj (KvList.ofList [("q", .null), ("p", .bool true)])),
         ("y", .num 3)])
      (KvMid.cons "x"
        (DocEquiv.obj (KvList.ofList [("p", .bool true), ("q", .null)])
          (KvMid.reflEquivKv _) (by decide))
        (KvMid.cons "y" (DocEquiv.num 3) KvMid.nil))
      (by decide))
    (by decide)

/-- C5 (code bug): the spec says top-level scalars — null included — still
canonicalize and diff normally, but with both documents loaded as the
scalar `null` the driver's `config1 is None or config2 is None` check
mistakes the loaded documents for load failures and exits 1 before any
canonicalization or diff; non-null top-level scalars do take the normal
success path. -/
theorem null_scalar_skips_diff :
    (∀ (c2 : PyValue) (schema : Option String) (v1 v2 : SchemaOutcome)
        (output : Option String) (wf : Bool),
      mainAfterLoad (toPy .null) c2 schema v1 v2 output wf = .exited 1)
    ∧ mainAfterLoad (toPy (.num 1)) (toPy (.num 2))
        Option.none .valid .valid Option.none false
      = .done ⟨0, emittedText (diff_configs (.num 1) (.num 2)),
          Option.none, false, true⟩
    ∧ diff_configs (.num 1) (.num 2) ≠ [] := by
  refine ⟨fun c2 schema v1 v2 output wf => rfl, ?_, ?_⟩
  · rfl
  · decide

/-- C6 counterexample: the emitted output is not one line per diff line.
`unified_diff` yields the `---`, `+++` and `@@` lines with a trailing
newline of their own, and the writer appends another (`f.write(line +
"\n")`, and `print` likewise), so those lines each come out followed by a
spurious blank line: splitting the emitted text does not give back the
diff lines. -/
theorem emitted_lines_mismatch :
    pySplitlines (emittedText (diff_configs
        (.obj (KvList.ofList [("a", .num 1)]))
        (.obj (KvList.ofList [("a", .num 2)]))))
      ≠ diff_configs (.obj (KvList.ofList [("a", .num 1)]))
          (.obj (KvList.ofList [("a", .num 2)])) := by
  decide

/-- C6 (amended): each body diff line (newline-free) is emitted as exactly
one output line, while each header or hunk-header line (which carries its
own trailing newline) is emitted as its stem followed by one spurious blank
line — on every pair of documents. -/
theorem emitted_lines_per_diff_line (A B : Document) :
    pySplitlines (emittedText (diff_configs A B)) =
      (diff_configs A B).flatMap fun l =>
        if '\n' ∈ l.data then [String.mk l.data.dropLast, ""] else [l] :=
  pySplitlines_emitted _ (diff_line_shape A B)

/-- The claim's plus/minus marker swap on one diff line (a spec-side
formalization of C4's wording, not a function of the program). -/
def specSwapMarker (l : String) : String :=
  match l.data with
  | '+' :: rest => String.mk ('-' :: rest)
  | '-' :: rest => String.mk ('+' :: rest)
  | _ => l

/-- C4 counterexample: `diff(A, B)` and `diff(B, A)` are not marker-swap
inverses, even ignoring the two header-label lines: a changed value yields
a `replace` opcode, and difflib emits all `-` lines before all `+` lines in
both directions, while the marker swap of one direction puts `+` before
`-`. -/
theorem diff_swap_not_inverse :
    ((diff_configs (.obj (KvList.ofList [("a", .num 1)]))
        (.obj (KvList.ofList [("a", .num 2)]))).drop 2).map specSwapMarker
      ≠ (diff_configs (.obj (KvList.ofList [("a", .num 2)]))
          (.obj (KvList.ofList [("a", .num 1)]))).drop 2 := by
  decide

/-- C4 (amended): what does hold symmetrically is the no-difference
verdict: the diff is empty exactly when the canonical line sequences are
equal, and hence `diff(A, B)` is empty exactly when `diff(B, A)` is. -/
theorem diff_empty_symm (A B : Document) :
    (diff_configs A B = [] ↔ pySplitlines (dumps A) = pySplitlines (dumps B))
    ∧ (diff_configs A B = [] ↔ diff_configs B A = []) := by
  constructor
  · exact unified_diff_nil_iff _ _ "file1" "file2"
  · show unified_diff (pySplitlines (dumps A)) (pySplitlines (dumps B)) "file1" "file2" = []
      ↔ unified_diff (pySplitlines (dumps B)) (pySplitlines (dumps A)) "file1" "file2" = []
    rw [unified_diff_nil_iff, unified_diff_nil_iff]
    exact eq_comm

/-- C2: the canonical serialization emits mappings with their keys in
ascending (lexicographic) sorted order — the emitted key sequence is sorted
and is a permutation of the original keys — sequences in their original
order, a fixed 4-space indentation per nesting level, and scalar literal
forms that the loader's JSON parser reads back to the same value. -/
theorem canonical_form (lvl : Nat) :
    (∀ kvs : KvList,
      dumpsAt lvl (.obj kvs) = renderObj lvl (sortPairs (objItems (lvl + 1) kvs))
      ∧ ((sortPairs (objItems (lvl + 1) kvs)).map Prod.fst).Sorted (· ≤ ·)
      ∧ ((sortPairs (objItems (lvl + 1) kvs)).map Prod.fst).Perm (KvList.keys kvs))
    ∧ (∀ xs : DocList,
      dumpsAt lvl (.arr xs) = renderArr lvl (arrItems (lvl + 1) xs)
      ∧ arrItems (lvl + 1) xs
        = (DocList.toList xs).map fun x => ind (lvl + 1) ++ dumpsAt (lvl + 1) x)
    ∧ ind lvl = String.mk (List.replicate (4 * lvl) ' ')
    ∧ jsonParseScalar (dumpsAt lvl .null) = some .null
    ∧ (∀ b : Bool, jsonParseScalar (dumpsAt lvl (.bool b)) = some (.bool b))
    ∧ (∀ i : Int, jsonParseScalar (dumpsAt lvl (.num i)) = some (.num i))
    ∧ (∀ s : String, jsonParseScalar (dumpsAt lvl (.str s)) = some (.str s)) := by
  refine ⟨?_, ?_, rfl, rfl, ?_, ?_, ?_⟩
  · intro kvs
    exact ⟨dumpsAt_obj_render lvl kvs, sortPairs_keys_sorted _,
      sortPairs_keys_perm (lvl + 1) kvs⟩
  · intro xs
    exact ⟨dumpsAt_arr_render lvl xs, arrItems_toList (lvl + 1) xs⟩
  · intro b
    cases b <;> rfl
  · intro i
    exact jsonParse_intRepr i
  · intro s
    exact jsonParse_encStr s

end DiffConfig
